import Mathlib

/-!
Verification of the consistency-proof core of the `ct-merkle` crate
(`src/consistency_proof.rs`).

The file embeds the Rust code shallowly:

* The index arithmetic (`tree_math`), the node store (`merkle_tree`) and the
  digest combiner are collaborators that are not part of the crate's
  `consistency_proof.rs`; they are modelled from the specification's
  collaborator contracts (see the doc comments marked "Modelled from the
  spec").  The index math is realised structurally: the virtual tree over the
  leaf interval `[a, b)` is the left-balanced RFC 6962 tree that splits at the
  largest power of two below `b - a`, with nodes numbered in order (the leaf
  `i` sits at internal index `2 * i`).
* Digests are kept abstract: the development is parameterised by a digest type
  `D`, a leaf hasher and a two-child combiner.  Rust panics are modelled by
  `Option`/explicit `panicked` results.
-/

namespace CtMerkle

/-- Mirror of the Rust `VerificationError` enum of `consistency_proof.rs`. -/
inductive VerificationError where
  | Io : VerificationError
  | MalformedProof : VerificationError
  | Failure : VerificationError
deriving DecidableEq

/-- Outcome of `verify_consistency`: `Ok(())`, `Err(e)`, or a Rust panic. -/
inductive VerifyResult where
  | ok : VerifyResult
  | err : VerificationError → VerifyResult
  | panicked : VerifyResult
deriving DecidableEq

/-- Mirror of Rust's `u64::is_power_of_two`. -/
def isPow2 (n : Nat) : Bool := n == 2 ^ Nat.log 2 n

/-- Modelled from the spec: the Index Math collaborator (§4.1).  For an
interval of `s ≥ 2` leaves, the left-balanced tree splits after the largest
power of two strictly below `s`. -/
def splitPoint (s : Nat) : Nat := 2 ^ Nat.log 2 (s - 1)

lemma splitPoint_pos (s : Nat) : 0 < splitPoint s := Nat.pos_pow_of_pos _ (by norm_num)

lemma splitPoint_lt {s : Nat} (h : 2 ≤ s) : splitPoint s < s := by
  have h1 : s - 1 ≠ 0 := by omega
  have := Nat.pow_log_le_self 2 h1
  unfold splitPoint
  omega

lemma le_two_mul_splitPoint {s : Nat} (h : 2 ≤ s) : s ≤ 2 * splitPoint s := by
  have := Nat.lt_pow_succ_log_self (by norm_num : (1 : Nat) < 2) (s - 1)
  have hpow : 2 ^ (Nat.log 2 (s - 1) + 1) = 2 * 2 ^ Nat.log 2 (s - 1) := by
    rw [pow_succ]; ring
  unfold splitPoint
  omega

/-- Modelled from the spec: in-order internal index of the root of the
subtree over the leaf interval `[a, b)`. -/
def rootIdxAB (a b : Nat) : Nat :=
  if b - a ≤ 1 then 2 * a else 2 * (a + splitPoint (b - a)) - 1

/-- Modelled from the spec: `root_idx(n)` of the Index Math collaborator. -/
def root_idx (n : Nat) : Nat := rootIdxAB 0 n

/-- Modelled from the spec: `parent(idx, n)` of the Index Math collaborator,
relativised to the subtree over `[a, b)`.  `none` models the Rust panic on
taking the parent of the root (and covers indices outside the tree). -/
def parentIn (a b idx : Nat) : Option Nat :=
  if b - a ≤ 1 then none
  else
    let m := a + splitPoint (b - a)
    let r := 2 * m - 1
    if idx = r then none
    else if idx < r then
      (if idx = rootIdxAB a m then some r else parentIn a m idx)
    else
      (if idx = rootIdxAB m b then some r else parentIn m b idx)
termination_by b - a
decreasing_by
  · have := splitPoint_lt (show 2 ≤ b - a by omega)
    have := splitPoint_pos (b - a)
    omega
  · have := splitPoint_lt (show 2 ≤ b - a by omega)
    have := splitPoint_pos (b - a)
    omega

/-- Modelled from the spec: `sibling(idx, n)` of the Index Math collaborator,
relativised to the subtree over `[a, b)`. -/
def siblingIn (a b idx : Nat) : Option Nat :=
  if b - a ≤ 1 then none
  else
    let m := a + splitPoint (b - a)
    let r := 2 * m - 1
    if idx = r then none
    else if idx < r then
      (if idx = rootIdxAB a m then some (rootIdxAB m b) else siblingIn a m idx)
    else
      (if idx = rootIdxAB m b then some (rootIdxAB a m) else siblingIn m b idx)
termination_by b - a
decreasing_by
  · have := splitPoint_lt (show 2 ≤ b - a by omega)
    have := splitPoint_pos (b - a)
    omega
  · have := splitPoint_lt (show 2 ≤ b - a by omega)
    have := splitPoint_pos (b - a)
    omega

/-- Modelled from the spec: the leaf interval covered by the node with
internal index `idx` of the tree over `[a, b)` (used to model the Node Store
lookups). -/
def intervalIn (a b idx : Nat) : Option (Nat × Nat) :=
  if b ≤ a then none
  else if b - a ≤ 1 then (if idx = 2 * a then some (a, b) else none)
  else
    let m := a + splitPoint (b - a)
    if idx = 2 * m - 1 then some (a, b)
    else if idx < 2 * m - 1 then intervalIn a m idx
    else intervalIn m b idx
termination_by b - a
decreasing_by
  · have := splitPoint_lt (show 2 ≤ b - a by omega)
    have := splitPoint_pos (b - a)
    omega
  · have := splitPoint_lt (show 2 ≤ b - a by omega)
    have := splitPoint_pos (b - a)
    omega

section Model

variable {D : Type} [DecidableEq D] (leafH : List Nat → D) (nodeH : D → D → D)

/-- Modelled from the spec: the digest of the subtree over the leaf interval
`[a, b)` (Digest Combiner §4.2 plus Node Store §3: leaves are hashed with the
leaf hasher, internal nodes combine their two children). Leaves are
represented by their canonical byte serialisations. -/
def hashRange (L : List (List Nat)) (a b : Nat) : D :=
  if b - a ≤ 1 then leafH (L.getD a [])
  else nodeH (hashRange L a (a + splitPoint (b - a))) (hashRange L (a + splitPoint (b - a)) b)
termination_by b - a
decreasing_by
  · have := splitPoint_lt (show 2 ≤ b - a by omega)
    have := splitPoint_pos (b - a)
    omega
  · have := splitPoint_lt (show 2 ≤ b - a by omega)
    have := splitPoint_pos (b - a)
    omega

/-- Mirror of the Rust `RootHash`: a digest together with a leaf count. -/
structure RootHash (D : Type) where
  root_hash : D
  num_leaves : Nat

/-- Mirror of the Rust `CtMerkleTree` as far as `consistency_proof.rs` reads
it: the leaves (as canonical serialisations) and the flat array of internal
node digests. -/
structure CtMerkleTree (D : Type) where
  leaves : List (List Nat)
  internal_nodes : List D

/-- Modelled from the spec: content of the node store at index `idx` for a
tree with leaves `L`. -/
def digestOfIdx (L : List (List Nat)) (idx : Nat) : D :=
  match intervalIn 0 L.length idx with
  | some (a, b) => hashRange leafH nodeH L a b
  | none => leafH []

/-- Modelled from the spec: the node store derived from the leaves. -/
def mkTree (L : List (List Nat)) : CtMerkleTree D :=
  ⟨L, (List.range (2 * L.length - 1)).map (digestOfIdx leafH nodeH L)⟩

/-- A tree whose stored internal nodes agree with its leaves. -/
def wfTree (T : CtMerkleTree D) : Prop :=
  T.internal_nodes = (List.range (2 * T.leaves.length - 1)).map (digestOfIdx leafH nodeH T.leaves)

/-- Modelled from the spec: the `RootHash` snapshot produced by the tree. -/
def treeRootHash (L : List (List Nat)) : RootHash D :=
  ⟨hashRange leafH nodeH L 0 L.length, L.length⟩

/-- The lockstep divergence walk shared by `consistency_proof` (lines
109–130) and `verify_consistency` (lines 184–201): climb the ancestor chains
of the starting index under the two tree sizes until the parents first
differ.  `none` models a Rust panic (parent of a root).  The fuel argument
only bounds the while loop; the callers pass more fuel than the tree height,
so exhaustion is unreachable on indices that denote nodes. -/
def divergeAux (nT mO : Nat) : Nat → Nat → Nat → Option (Nat × Nat)
  | 0, _, _ => none
  | fuel+1, at_, ao =>
    match parentIn 0 nT at_, parentIn 0 mO ao with
    | some pt, some po => if pt = po then divergeAux nT mO fuel pt po else some (at_, ao)
    | _, _ => none

/-- The copath collection loop of `consistency_proof` (lines 133–140):
record the sibling's digest and step to the parent until the root is
reached.  `none` models a Rust panic (sibling/parent of the root, or an
out-of-bounds node store read). -/
def copathLoop (T : CtMerkleTree D) (n rootI : Nat) : Nat → Nat → List D → Option (List D)
  | 0, _, _ => none
  | fuel+1, idx, acc =>
    if idx = rootI then some acc
    else
      match siblingIn 0 n idx, parentIn 0 n idx with
      | some sib, some p =>
        match T.internal_nodes.get? sib with
        | some d => copathLoop T n rootI fuel p (acc ++ [d])
        | none => none
      | _, _ => none

/-- Embedding of `CtMerkleTree::consistency_proof` (lines 79–146).  The
result is the list of proof digests (their concatenation is the RFC 6962
byte encoding); `none` models a Rust panic. -/
def consistency_proof (T : CtMerkleTree D) (ss : Nat) : Option (List D) :=
  if ss = 0 then none
  else
    let n := T.leaves.length
    let m := ss
    let treeRootIdx := root_idx n
    let starting := 2 * (m - 1)
    if ss = n then some []
    else
      let seeded : Option (Nat × List D) :=
        if isPow2 m then some (root_idx m, [])
        else
          match divergeAux n m (n + m + 2) starting starting with
          | none => none
          | some (anc, _) =>
            match T.internal_nodes.get? anc with
            | none => none
            | some d => some (anc, [d])
      match seeded with
      | none => none
      | some (start, acc) => copathLoop T n treeRootIdx (2 * n + 2) start acc

/-- The main loop of `verify_consistency` (lines 205–241): fold every chunk
into the running new-tree hash, and fold the chunks that sit on the old
tree's copath into the running old-tree hash as well.  `is_left` is `idx <
parent` in the in-order numbering. -/
def verifyLoop (nT mO oldRootIdx : Nat) : List D → Nat → D → Nat → D → Option (D × D)
  | [], _, th, _, oh => some (th, oh)
  | c :: rest, ti, th, oi, oh =>
    match siblingIn 0 nT ti, parentIn 0 nT ti with
    | some sib, some p =>
      let th' := if ti < p then nodeH th c else nodeH c th
      if oi = oldRootIdx then verifyLoop nT mO oldRootIdx rest p th' oi oh
      else
        match siblingIn 0 mO oi, parentIn 0 mO oi with
        | some osib, some op =>
          if sib = osib then
            let oh' := if oi < op then nodeH oh c else nodeH c oh
            verifyLoop nT mO oldRootIdx rest p th' op oh'
          else verifyLoop nT mO oldRootIdx rest p th' oi oh
        | _, _ => none
    | _, _ => none

/-- Embedding of `RootHash::verify_consistency` (lines 152–254) on the
decoded digest sequence.  With `num_leaves = 0` the Rust code panics (the
`u64` subtraction on line 157 aborts in debug mode and the explicit panic on
line 163 fires in release mode), hence `panicked`. -/
def verify_consistency (newR oldR : RootHash D) (proof : List D) : VerifyResult :=
  let n := newR.num_leaves
  let m := oldR.num_leaves
  if m = 0 then .panicked
  else
    let starting := 2 * (m - 1)
    let oldRootIdx := root_idx m
    if oldR.root_hash = newR.root_hash ∧ proof = [] then .ok
    else
      let seeded : Option (Nat × D × List D) :=
        if isPow2 m then some (oldRootIdx, oldR.root_hash, proof)
        else
          match divergeAux n m (n + m + 2) starting starting with
          | none => none
          | some (anc, _) =>
            match proof with
            | [] => none
            | c :: rest => some (anc, c, rest)
      match seeded with
      | none => .panicked
      | some (start, h0, rest) =>
        match verifyLoop nodeH n m oldRootIdx rest start h0 start h0 with
        | none => .panicked
        | some (th, oh) =>
          if oh ≠ oldR.root_hash ∨ th ≠ newR.root_hash then .err .Failure else .ok

end Model

/-- Embedding of `ConsistencyProof::from_bytes` (lines 60–69): keep the raw
bytes when their length is a multiple of the digest size `hs`, otherwise
panic (`none`). -/
def from_bytes (hs : Nat) (bytes : List Nat) : Option (List Nat) :=
  if bytes.length % hs = 0 then some bytes else none

/-- Embedding of `ConsistencyProof::as_bytes` (lines 53–55). -/
def as_bytes (proof : List Nat) : List Nat := proof

/-- Byte chunks of size `hs`, as produced by `proof.chunks(H::OutputSize::USIZE)`
on line 176 (the last chunk may be short). -/
def chunksOf (hs : Nat) (l : List Nat) : List (List Nat) :=
  if hs = 0 then []
  else if l = [] then []
  else l.take hs :: chunksOf hs (l.drop hs)
termination_by l.length
decreasing_by
  rename_i h0 h1
  have : l.length ≠ 0 := by
    intro hl
    exact h1 (List.eq_nil_of_length_eq_zero hl)
  simp [List.length_drop]
  omega

/-- Embedding of `verify_consistency` at the byte level: the digests
iterator on lines 174–177 maps `Output::<H>::from_slice` over the chunks,
which panics on a short chunk as soon as it is consumed.  On every path that
is not the empty-proof fast path the iterator is drained (the seed `next()`
on line 200 and the `for` loop on line 205), so a byte length that is not a
multiple of the digest size always panics there. -/
def verify_consistency_bytes {D : Type} [DecidableEq D] (nodeH : D → D → D)
    (hs : Nat) (dec : List Nat → D) (newR oldR : RootHash D) (bytes : List Nat) :
    VerifyResult :=
  if oldR.num_leaves = 0 then .panicked
  else if oldR.root_hash = newR.root_hash ∧ bytes = [] then .ok
  else if bytes.length % hs ≠ 0 then .panicked
  else verify_consistency nodeH newR oldR ((chunksOf hs bytes).map dec)

/-- The idealised digest algebra: leaf hashes, two-child combinations and
arbitrary digest-sized wire bytes are pairwise distinct and injective
(collision-freeness is modelled by the freeness of the constructors). -/
inductive Digest where
  | leafB : List Nat → Digest
  | nodeB : Digest → Digest → Digest
  | raw : List Nat → Digest
deriving DecidableEq

end CtMerkle

/-! ### Basic facts and the simpler claims -/

namespace CtMerkle

lemma mkTree_wf {D : Type} (leafH : List Nat → D) (nodeH : D → D → D)
    (L : List (List Nat)) : wfTree leafH nodeH (mkTree leafH nodeH L) := rfl

/-- C6: Calling `consistency_proof` with `old_size = 0` panics for every
tree rather than returning a proof or a recoverable error. -/
theorem claim_C6 {D : Type} (T : CtMerkleTree D) :
    consistency_proof T 0 = none := by
  simp [consistency_proof]

/-- C5: Calling `verify_consistency` with an `old_root` whose leaf count is
`0` panics for every `new_root` and every proof rather than returning a
recoverable error. -/
theorem claim_C5 {D : Type} [DecidableEq D] (nodeH : D → D → D)
    (newR : RootHash D) (oldHash : D) (proof : List D) :
    verify_consistency nodeH newR ⟨oldHash, 0⟩ proof = .panicked := by
  simp [verify_consistency]

/-- C2: `consistency_proof(T, T.leaf_count)` is the empty proof for every
tree with at least one leaf, and `verify_consistency(R, R, empty)` succeeds
for every root `R` with `leaf_count ≥ 1`. -/
theorem claim_C2 {D : Type} [DecidableEq D] (nodeH : D → D → D)
    (T : CtMerkleTree D) (R : RootHash D)
    (hT : 1 ≤ T.leaves.length) (hR : 1 ≤ R.num_leaves) :
    consistency_proof T T.leaves.length = some [] ∧
      verify_consistency nodeH R R [] = .ok := by
  constructor
  · have hne : T.leaves.length ≠ 0 := by omega
    simp [consistency_proof, hne]
  · have hne : R.num_leaves ≠ 0 := by omega
    simp [verify_consistency, hne]

theorem claim_C2_witness :
    consistency_proof (mkTree Digest.leafB Digest.nodeB [[5]]) 1 = some [] ∧
      verify_consistency Digest.nodeB ⟨Digest.raw [7], 1⟩ ⟨Digest.raw [7], 1⟩ [] = .ok :=
  claim_C2 Digest.nodeB (mkTree Digest.leafB Digest.nodeB [[5]]) ⟨Digest.raw [7], 1⟩
    (by decide) (by decide)

/-- C4 (counterexample): with equal digests and an empty proof the fast path
does not fire when the old leaf count is `0`: the call panics instead of
returning `Ok`, so the claim fails as stated for that input. -/
theorem claim_C4_counterexample :
    verify_consistency Digest.nodeB ⟨Digest.raw [1], 7⟩ ⟨Digest.raw [1], 0⟩ [] = .panicked ∧
      verify_consistency Digest.nodeB ⟨Digest.raw [1], 7⟩ ⟨Digest.raw [1], 0⟩ [] ≠ .ok := by
  constructor
  · rfl
  · decide

/-- C4 (amended): whenever `old_root.leaf_count ≥ 1`, equal digests plus an
empty proof make `verify_consistency` return `Ok` immediately, even when the
two leaf counts differ (the fast path does not compare leaf counts). -/
theorem claim_C4 {D : Type} [DecidableEq D] (nodeH : D → D → D)
    (newR oldR : RootHash D) (h1 : 1 ≤ oldR.num_leaves)
    (heq : oldR.root_hash = newR.root_hash) :
    verify_consistency nodeH newR oldR [] = .ok := by
  have hne : oldR.num_leaves ≠ 0 := by omega
  simp [verify_consistency, hne, heq]

theorem claim_C4_witness :
    verify_consistency Digest.nodeB ⟨Digest.raw [1], 7⟩ ⟨Digest.raw [1], 3⟩ [] = .ok :=
  claim_C4 Digest.nodeB ⟨Digest.raw [1], 7⟩ ⟨Digest.raw [1], 3⟩ (by decide) rfl

/-- C9: for an `old_root` whose leaf count is at least `2` and not a power
of two, an empty proof together with differing digests makes
`verify_consistency` panic (the seed `digests.next().unwrap()` finds no
first chunk) instead of returning an error value. -/
theorem claim_C9 {D : Type} [DecidableEq D] (nodeH : D → D → D)
    (newR oldR : RootHash D) (h2 : 2 ≤ oldR.num_leaves)
    (hnp : ∀ e : Nat, oldR.num_leaves ≠ 2 ^ e)
    (hne : oldR.root_hash ≠ newR.root_hash) :
    verify_consistency nodeH newR oldR [] = .panicked := by
  have h0 : oldR.num_leaves ≠ 0 := by omega
  have hpow : isPow2 oldR.num_leaves = false := by
    simp only [isPow2, beq_eq_false_iff_ne, ne_eq]
    exact hnp _
  simp only [verify_consistency, h0, if_false]
  rw [if_neg (by simp [hne]), hpow]
  cases hdiv : divergeAux newR.num_leaves oldR.num_leaves
      (newR.num_leaves + oldR.num_leaves + 2)
      (2 * (oldR.num_leaves - 1)) (2 * (oldR.num_leaves - 1)) with
  | none => simp [hdiv]
  | some anc => simp [hdiv]

theorem claim_C9_witness :
    verify_consistency Digest.nodeB ⟨Digest.raw [1], 7⟩ ⟨Digest.raw [2], 3⟩ [] = .panicked :=
  claim_C9 Digest.nodeB ⟨Digest.raw [1], 7⟩ ⟨Digest.raw [2], 3⟩ (by decide)
    (by
      intro e
      rcases e with _ | _ | e
      · decide
      · decide
      · simp only []
        intro h
        have : 4 ≤ 2 ^ (e + 2) := by
          calc 4 = 2 ^ 2 := by norm_num
          _ ≤ 2 ^ (e + 2) := Nat.pow_le_pow_right (by norm_num) (by omega)
        omega)
    (by decide)

/-- C10: `from_bytes` succeeds on every byte string whose length is a
multiple of the digest size, and `as_bytes` returns exactly those bytes. -/
theorem claim_C10 (hs : Nat) (bytes : List Nat) (h : bytes.length % hs = 0) :
    from_bytes hs bytes = some bytes ∧ as_bytes bytes = bytes := by
  constructor
  · simp [from_bytes, h]
  · rfl

theorem claim_C10_witness :
    from_bytes 2 [1, 2, 3, 4] = some [1, 2, 3, 4] ∧ as_bytes [1, 2, 3, 4] = [1, 2, 3, 4] :=
  claim_C10 2 [1, 2, 3, 4] (by decide)

/-- C8: for well-formed trees the consistency proof depends only on the leaf
contents and `old_size`: two trees with identical leaves produce identical
proofs. -/
theorem claim_C8 {D : Type} (leafH : List Nat → D) (nodeH : D → D → D)
    (T1 T2 : CtMerkleTree D) (ss : Nat)
    (h1 : wfTree leafH nodeH T1) (h2 : wfTree leafH nodeH T2)
    (hleaves : T1.leaves = T2.leaves) :
    consistency_proof T1 ss = consistency_proof T2 ss := by
  have : T1 = T2 := by
    cases T1 with
    | mk l1 i1 =>
      cases T2 with
      | mk l2 i2 =>
        simp only [wfTree] at h1 h2
        simp only at hleaves
        subst hleaves
        simp_all
  rw [this]

theorem claim_C8_witness :
    consistency_proof (mkTree Digest.leafB Digest.nodeB [[1], [2], [3]]) 2 =
      consistency_proof (mkTree Digest.leafB Digest.nodeB [[1], [2], [3]]) 2 :=
  claim_C8 Digest.leafB Digest.nodeB _ _ 2 (mkTree_wf _ _ _) (mkTree_wf _ _ _) rfl

end CtMerkle

/-! ### Structural lemmas about the index math -/

namespace CtMerkle

/-- `Sub a b c d` states that `[c, d)` is the leaf interval of a node of the
left-balanced tree over `[a, b)`. -/
inductive Sub : Nat → Nat → Nat → Nat → Prop where
  | refl (a b : Nat) : Sub a b a b
  | left {a b c d : Nat} : Sub a b c d → 2 ≤ d - c → Sub a b c (c + splitPoint (d - c))
  | right {a b c d : Nat} : Sub a b c d → 2 ≤ d - c → Sub a b (c + splitPoint (d - c)) d

lemma Sub.bounds {a b c d : Nat} (h : Sub a b c d) (hab : a < b) :
    a ≤ c ∧ c < d ∧ d ≤ b := by
  induction h with
  | refl => exact ⟨le_refl _, hab, le_refl _⟩
  | @left c' d' h h2 ih =>
    rcases ih with ⟨h1, h3, h4⟩
    have p1 := splitPoint_pos (d' - c')
    have p2 := splitPoint_lt h2
    exact ⟨h1, by omega, by omega⟩
  | @right c' d' h h2 ih =>
    rcases ih with ⟨h1, h3, h4⟩
    have p1 := splitPoint_pos (d' - c')
    have p2 := splitPoint_lt h2
    exact ⟨by omega, by omega, h4⟩

lemma Sub.inversion {a b c d : Nat} (h : Sub a b c d) :
    (c = a ∧ d = b) ∨
      (2 ≤ b - a ∧
        (Sub a (a + splitPoint (b - a)) c d ∨ Sub (a + splitPoint (b - a)) b c d)) := by
  induction h with
  | refl => exact Or.inl ⟨rfl, rfl⟩
  | left h h2 ih =>
    rcases ih with ⟨hc, hd⟩ | ⟨hba, hsub | hsub⟩
    · subst hc; subst hd
      exact Or.inr ⟨h2, Or.inl (Sub.refl _ _)⟩
    · exact Or.inr ⟨hba, Or.inl (Sub.left hsub h2)⟩
    · exact Or.inr ⟨hba, Or.inr (Sub.left hsub h2)⟩
  | right h h2 ih =>
    rcases ih with ⟨hc, hd⟩ | ⟨hba, hsub | hsub⟩
    · subst hc; subst hd
      exact Or.inr ⟨h2, Or.inr (Sub.refl _ _)⟩
    · exact Or.inr ⟨hba, Or.inl (Sub.right hsub h2)⟩
    · exact Or.inr ⟨hba, Or.inr (Sub.right hsub h2)⟩

lemma rootIdxAB_bounds {a b : Nat} (h : a < b) :
    2 * a ≤ rootIdxAB a b ∧ rootIdxAB a b ≤ 2 * b - 2 := by
  unfold rootIdxAB
  by_cases h1 : b - a ≤ 1
  · simp only [h1, if_true]
    omega
  · simp only [h1, if_false]
    have := splitPoint_pos (b - a)
    have := splitPoint_lt (show 2 ≤ b - a by omega)
    omega

lemma rootIdxAB_of_small {a b : Nat} (h : b - a ≤ 1) : rootIdxAB a b = 2 * a := by
  simp [rootIdxAB, h]

lemma rootIdxAB_of_big {a b : Nat} (h : 2 ≤ b - a) :
    rootIdxAB a b = 2 * (a + splitPoint (b - a)) - 1 := by
  simp [rootIdxAB]
  omega

/-- Any node index of a subtree lies in the index span of that subtree. -/
lemma root_span {a b c d : Nat} (h : Sub a b c d) (hab : a < b) :
    2 * c ≤ rootIdxAB c d ∧ rootIdxAB c d ≤ 2 * d - 2 :=
  rootIdxAB_bounds (h.bounds hab).2.1

lemma intervalIn_of_sub_aux :
    ∀ k a b c d, b - a = k → Sub a b c d → a < b →
      intervalIn a b (rootIdxAB c d) = some (c, d) := by
  intro k
  induction k using Nat.strong_induction_on with
  | _ k ih =>
  intro a b c d hk h hab
  rcases h.inversion with ⟨hc, hd⟩ | ⟨hba, hsub | hsub⟩
  · subst hc; subst hd
    rw [intervalIn]
    by_cases h1 : d - c ≤ 1
    · rw [rootIdxAB_of_small h1]
      simp [Nat.not_le.mpr hab, h1]
    · rw [rootIdxAB_of_big (by omega)]
      simp [Nat.not_le.mpr hab, h1]
  · -- left half
    have hM : a < a + splitPoint (b - a) := by
      have := splitPoint_pos (b - a); omega
    have hMb : a + splitPoint (b - a) - a < b - a := by
      have := splitPoint_lt (show 2 ≤ b - a by omega); omega
    obtain ⟨hac, hcd, hdM⟩ := hsub.bounds hM
    obtain ⟨hlo, hhi⟩ := root_span hsub hM
    rw [intervalIn]
    simp only [Nat.not_le.mpr hab, if_false]
    have h1 : ¬ (b - a ≤ 1) := by omega
    simp only [h1, if_false]
    have hne : rootIdxAB c d ≠ 2 * (a + splitPoint (b - a)) - 1 := by omega
    have hlt : rootIdxAB c d < 2 * (a + splitPoint (b - a)) - 1 := by omega
    simp only [hne, if_false, hlt, if_true]
    exact ih _ (by omega) _ _ _ _ rfl hsub hM
  · -- right half
    have hM : a + splitPoint (b - a) < b := by
      have := splitPoint_lt (show 2 ≤ b - a by omega); omega
    obtain ⟨hac, hcd, hdM⟩ := hsub.bounds hM
    obtain ⟨hlo, hhi⟩ := root_span hsub hM
    rw [intervalIn]
    simp only [Nat.not_le.mpr hab, if_false]
    have h1 : ¬ (b - a ≤ 1) := by omega
    simp only [h1, if_false]
    have := splitPoint_pos (b - a)
    have hne : rootIdxAB c d ≠ 2 * (a + splitPoint (b - a)) - 1 := by omega
    have hnlt : ¬ (rootIdxAB c d < 2 * (a + splitPoint (b - a)) - 1) := by omega
    simp only [hne, if_false, hnlt, if_true]
    exact ih _ (by omega) _ _ _ _ rfl hsub hM

/-- Localisation of `intervalIn`: looking up the root index of an embedded
subtree yields that subtree's leaf interval. -/
lemma intervalIn_of_sub {a b c d : Nat} (h : Sub a b c d) (hab : a < b) :
    intervalIn a b (rootIdxAB c d) = some (c, d) :=
  intervalIn_of_sub_aux (b - a) a b c d rfl h hab

/-- Distinct node intervals of one tree have distinct in-order indices. -/
lemma rootIdx_ne {a b c d e f : Nat} (h1 : Sub a b c d) (h2 : Sub a b e f)
    (hab : a < b) (hne : ¬ (c = e ∧ d = f)) :
    rootIdxAB c d ≠ rootIdxAB e f := by
  intro heq
  have i1 := intervalIn_of_sub h1 hab
  have i2 := intervalIn_of_sub h2 hab
  rw [heq] at i1
  rw [i1] at i2
  simp at i2
  exact hne ⟨i2.1, i2.2⟩

end CtMerkle

namespace CtMerkle

lemma children_of_sub_aux :
    ∀ k a b c d, b - a = k → Sub a b c d → 2 ≤ d - c → a < b →
      parentIn a b (rootIdxAB c (c + splitPoint (d - c))) = some (rootIdxAB c d) ∧
      parentIn a b (rootIdxAB (c + splitPoint (d - c)) d) = some (rootIdxAB c d) ∧
      siblingIn a b (rootIdxAB c (c + splitPoint (d - c))) =
        some (rootIdxAB (c + splitPoint (d - c)) d) ∧
      siblingIn a b (rootIdxAB (c + splitPoint (d - c)) d) =
        some (rootIdxAB c (c + splitPoint (d - c))) := by
  intro k
  induction k using Nat.strong_induction_on with
  | _ k ih =>
  intro a b c d hk h h2 hab
  rcases h.inversion with ⟨hc, hd⟩ | ⟨hba, hsub | hsub⟩
  · subst hc; subst hd
    have hcm : c < c + splitPoint (d - c) := by
      have := splitPoint_pos (d - c); omega
    have hmd : c + splitPoint (d - c) < d := by
      have := splitPoint_lt h2; omega
    obtain ⟨l1, l2⟩ := rootIdxAB_bounds hcm
    obtain ⟨r1, r2⟩ := rootIdxAB_bounds hmd
    have h1 : ¬ (d - c ≤ 1) := by omega
    have hneL : rootIdxAB c (c + splitPoint (d - c)) ≠ 2 * (c + splitPoint (d - c)) - 1 := by
      omega
    have hltL : rootIdxAB c (c + splitPoint (d - c)) < 2 * (c + splitPoint (d - c)) - 1 := by
      omega
    have hneR : rootIdxAB (c + splitPoint (d - c)) d ≠ 2 * (c + splitPoint (d - c)) - 1 := by
      omega
    have hnltR : ¬ (rootIdxAB (c + splitPoint (d - c)) d < 2 * (c + splitPoint (d - c)) - 1) := by
      omega
    refine ⟨?_, ?_, ?_, ?_⟩
    · rw [parentIn]
      simp only [h1, if_false]
      simp only [hneL, hltL, if_false, if_true]
      simp [rootIdxAB_of_big h2]
    · rw [parentIn]
      simp only [h1, if_false]
      simp only [hneR, hnltR, if_false]
      simp [rootIdxAB_of_big h2]
    · rw [siblingIn]
      simp only [h1, if_false]
      simp only [hneL, hltL, if_false, if_true]
    · rw [siblingIn]
      simp only [h1, if_false]
      simp only [hneR, hnltR, if_false]
      simp
  · -- the node lies in the left half of the tree over the interval
    have hM : a < a + splitPoint (b - a) := by
      have := splitPoint_pos (b - a); omega
    obtain ⟨hac, hcd, hdM⟩ := hsub.bounds hM
    have hcm : c < c + splitPoint (d - c) := by
      have := splitPoint_pos (d - c); omega
    have hmd : c + splitPoint (d - c) < d := by
      have := splitPoint_lt h2; omega
    obtain ⟨l1, l2⟩ := rootIdxAB_bounds hcm
    obtain ⟨r1, r2⟩ := rootIdxAB_bounds hmd
    have hsubL : Sub a (a + splitPoint (b - a)) c (c + splitPoint (d - c)) := Sub.left hsub h2
    have hsubR : Sub a (a + splitPoint (b - a)) (c + splitPoint (d - c)) d := Sub.right hsub h2
    have hneL : rootIdxAB c (c + splitPoint (d - c)) ≠ rootIdxAB a (a + splitPoint (b - a)) :=
      rootIdx_ne hsubL (Sub.refl _ _) hM (by rintro ⟨e1, e2⟩; omega)
    have hneR : rootIdxAB (c + splitPoint (d - c)) d ≠ rootIdxAB a (a + splitPoint (b - a)) :=
      rootIdx_ne hsubR (Sub.refl _ _) hM (by rintro ⟨e1, e2⟩; omega)
    have h1 : ¬ (b - a ≤ 1) := by omega
    have hx1 : rootIdxAB c (c + splitPoint (d - c)) ≠ 2 * (a + splitPoint (b - a)) - 1 := by
      omega
    have hx2 : rootIdxAB c (c + splitPoint (d - c)) < 2 * (a + splitPoint (b - a)) - 1 := by
      omega
    have hx3 : rootIdxAB (c + splitPoint (d - c)) d ≠ 2 * (a + splitPoint (b - a)) - 1 := by
      omega
    have hx4 : rootIdxAB (c + splitPoint (d - c)) d < 2 * (a + splitPoint (b - a)) - 1 := by
      omega
    have hrec := ih _ (by have := splitPoint_lt (show 2 ≤ b - a by omega); omega)
      a (a + splitPoint (b - a)) c d rfl hsub h2 hM
    refine ⟨?_, ?_, ?_, ?_⟩
    · rw [parentIn]
      simp only [h1, if_false]
      simp only [hx1, hx2, if_false, if_true, hneL]
      exact hrec.1
    · rw [parentIn]
      simp only [h1, if_false]
      simp only [hx3, hx4, if_false, if_true, hneR]
      exact hrec.2.1
    · rw [siblingIn]
      simp only [h1, if_false]
      simp only [hx1, hx2, if_false, if_true, hneL]
      exact hrec.2.2.1
    · rw [siblingIn]
      simp only [h1, if_false]
      simp only [hx3, hx4, if_false, if_true, hneR]
      exact hrec.2.2.2
  · -- the node lies in the right half of the tree over the interval
    have hM : a + splitPoint (b - a) < b := by
      have := splitPoint_lt (show 2 ≤ b - a by omega); omega
    have hsp := splitPoint_pos (b - a)
    obtain ⟨hac, hcd, hdM⟩ := hsub.bounds hM
    have hcm : c < c + splitPoint (d - c) := by
      have := splitPoint_pos (d - c); omega
    have hmd : c + splitPoint (d - c) < d := by
      have := splitPoint_lt h2; omega
    obtain ⟨l1, l2⟩ := rootIdxAB_bounds hcm
    obtain ⟨r1, r2⟩ := rootIdxAB_bounds hmd
    have hsubL : Sub (a + splitPoint (b - a)) b c (c + splitPoint (d - c)) := Sub.left hsub h2
    have hsubR : Sub (a + splitPoint (b - a)) b (c + splitPoint (d - c)) d := Sub.right hsub h2
    have hneL : rootIdxAB c (c + splitPoint (d - c)) ≠ rootIdxAB (a + splitPoint (b - a)) b :=
      rootIdx_ne hsubL (Sub.refl _ _) hM (by rintro ⟨e1, e2⟩; omega)
    have hneR : rootIdxAB (c + splitPoint (d - c)) d ≠ rootIdxAB (a + splitPoint (b - a)) b :=
      rootIdx_ne hsubR (Sub.refl _ _) hM (by rintro ⟨e1, e2⟩; omega)
    have h1 : ¬ (b - a ≤ 1) := by omega
    have hx1 : rootIdxAB c (c + splitPoint (d - c)) ≠ 2 * (a + splitPoint (b - a)) - 1 := by
      omega
    have hx2 : ¬ (rootIdxAB c (c + splitPoint (d - c)) < 2 * (a + splitPoint (b - a)) - 1) := by
      omega
    have hx3 : rootIdxAB (c + splitPoint (d - c)) d ≠ 2 * (a + splitPoint (b - a)) - 1 := by
      omega
    have hx4 : ¬ (rootIdxAB (c + splitPoint (d - c)) d < 2 * (a + splitPoint (b - a)) - 1) := by
      omega
    have hrec := ih _ (by have := splitPoint_pos (b - a); omega)
      (a + splitPoint (b - a)) b c d rfl hsub h2 hM
    refine ⟨?_, ?_, ?_, ?_⟩
    · rw [parentIn]
      simp only [h1, if_false]
      simp only [hx1, hx2, if_false, hneL]
      exact hrec.1
    · rw [parentIn]
      simp only [h1, if_false]
      simp only [hx3, hx4, if_false, hneR]
      exact hrec.2.1
    · rw [siblingIn]
      simp only [h1, if_false]
      simp only [hx1, hx2, if_false, hneL]
      exact hrec.2.2.1
    · rw [siblingIn]
      simp only [h1, if_false]
      simp only [hx3, hx4, if_false, hneR]
      exact hrec.2.2.2

/-- Parent of a left child root, within the embedding tree. -/
lemma parentIn_left_child {a b c d : Nat} (h : Sub a b c d) (h2 : 2 ≤ d - c) (hab : a < b) :
    parentIn a b (rootIdxAB c (c + splitPoint (d - c))) = some (rootIdxAB c d) :=
  (children_of_sub_aux (b - a) a b c d rfl h h2 hab).1

/-- Parent of a right child root, within the embedding tree. -/
lemma parentIn_right_child {a b c d : Nat} (h : Sub a b c d) (h2 : 2 ≤ d - c) (hab : a < b) :
    parentIn a b (rootIdxAB (c + splitPoint (d - c)) d) = some (rootIdxAB c d) :=
  (children_of_sub_aux (b - a) a b c d rfl h h2 hab).2.1

/-- Sibling of a left child root, within the embedding tree. -/
lemma siblingIn_left_child {a b c d : Nat} (h : Sub a b c d) (h2 : 2 ≤ d - c) (hab : a < b) :
    siblingIn a b (rootIdxAB c (c + splitPoint (d - c))) =
      some (rootIdxAB (c + splitPoint (d - c)) d) :=
  (children_of_sub_aux (b - a) a b c d rfl h h2 hab).2.2.1

/-- Sibling of a right child root, within the embedding tree. -/
lemma siblingIn_right_child {a b c d : Nat} (h : Sub a b c d) (h2 : 2 ≤ d - c) (hab : a < b) :
    siblingIn a b (rootIdxAB (c + splitPoint (d - c)) d) =
      some (rootIdxAB c (c + splitPoint (d - c))) :=
  (children_of_sub_aux (b - a) a b c d rfl h h2 hab).2.2.2

end CtMerkle

namespace CtMerkle

lemma hashRange_leaf {D : Type} (leafH : List Nat → D) (nodeH : D → D → D)
    (L : List (List Nat)) {a b : Nat} (h : b - a ≤ 1) :
    hashRange leafH nodeH L a b = leafH (L.getD a []) := by
  rw [hashRange]
  simp [h]

lemma hashRange_split {D : Type} (leafH : List Nat → D) (nodeH : D → D → D)
    (L : List (List Nat)) {a b : Nat} (h : 2 ≤ b - a) :
    hashRange leafH nodeH L a b =
      nodeH (hashRange leafH nodeH L a (a + splitPoint (b - a)))
        (hashRange leafH nodeH L (a + splitPoint (b - a)) b) := by
  rw [hashRange]
  simp [show ¬ (b - a ≤ 1) by omega]

lemma hashRange_take_aux {D : Type} (leafH : List Nat → D) (nodeH : D → D → D)
    (L : List (List Nat)) (kk : Nat) :
    ∀ s a b, b - a = s → a < b → b ≤ kk →
      hashRange leafH nodeH (L.take kk) a b = hashRange leafH nodeH L a b := by
  intro s
  induction s using Nat.strong_induction_on with
  | _ s ih =>
  intro a b hs hab hbk
  by_cases h1 : b - a ≤ 1
  · rw [hashRange_leaf _ _ _ h1, hashRange_leaf _ _ _ h1]
    congr 1
    rw [List.getD_eq_getElem?_getD, List.getD_eq_getElem?_getD,
      List.getElem?_take_of_lt (by omega)]
  · have hp := splitPoint_pos (b - a)
    have hl := splitPoint_lt (show 2 ≤ b - a by omega)
    rw [hashRange_split leafH nodeH (L.take kk) (show 2 ≤ b - a by omega),
      hashRange_split leafH nodeH L (show 2 ≤ b - a by omega)]
    have e1 := ih (a + splitPoint (b - a) - a) (by omega) a (a + splitPoint (b - a)) rfl
      (by omega) (by omega)
    have e2 := ih (b - (a + splitPoint (b - a))) (by omega) (a + splitPoint (b - a)) b rfl
      (by omega) (by omega)
    rw [e1, e2]

/-- Hashing a prefix of the leaves agrees with hashing the full list on
intervals inside the prefix. -/
lemma hashRange_take {D : Type} (leafH : List Nat → D) (nodeH : D → D → D)
    (L : List (List Nat)) {kk a b : Nat} (hab : a < b) (hbk : b ≤ kk) :
    hashRange leafH nodeH (L.take kk) a b = hashRange leafH nodeH L a b :=
  hashRange_take_aux leafH nodeH L kk (b - a) a b rfl hab hbk

lemma isPow2_true_iff (n : Nat) : isPow2 n = true ↔ ∃ e, n = 2 ^ e := by
  constructor
  · intro h
    exact ⟨Nat.log 2 n, by simpa [isPow2] using h⟩
  · rintro ⟨e, rfl⟩
    simp [isPow2, Nat.log_pow]

lemma splitPoint_eq_of_pow {s e : Nat} (h1 : 2 ^ e < s) (h2 : s ≤ 2 * 2 ^ e) :
    splitPoint s = 2 ^ e := by
  unfold splitPoint
  congr 1
  refine Nat.log_eq_of_pow_le_of_lt_pow (by omega) ?_
  rw [pow_succ]
  omega

lemma pow_le_splitPoint {s e : Nat} (h : 2 ^ e < s) : 2 ^ e ≤ splitPoint s := by
  have hp : 0 < 2 ^ e := Nat.pos_pow_of_pos e (by norm_num)
  unfold splitPoint
  refine Nat.pow_le_pow_right (by norm_num) ?_
  exact (Nat.pow_le_iff_le_log (by norm_num) (by omega)).mp (by omega)

/-- When the old size exceeds the new split point, both trees split at the
same place. -/
lemma splitPoint_shared {a mm bn : Nat} (h2 : 2 ≤ bn - a)
    (hK : a + splitPoint (bn - a) < mm) (hm : mm < bn) :
    splitPoint (mm - a) = splitPoint (bn - a) := by
  have h3 := le_two_mul_splitPoint h2
  have h1 : splitPoint (bn - a) < mm - a := by omega
  have h4 : mm - a ≤ 2 * splitPoint (bn - a) := by omega
  rw [show splitPoint (bn - a) = 2 ^ Nat.log 2 (bn - a - 1) from rfl] at h1 h4 ⊢
  exact splitPoint_eq_of_pow h1 h4

/-- The divergence-state recursion: given the old snapshot `[a, mm)` inside
the new subtree `[a, bn)`, descend to the left endpoint of the largest
common subtree that ends at leaf `mm - 1`. -/
def anchorStart (a mm bn : Nat) : Nat :=
  if h : a < mm ∧ mm < bn then
    let K := a + splitPoint (bn - a)
    if mm = K then a
    else if mm < K then anchorStart a mm K
    else anchorStart K mm bn
  else a
termination_by bn - a
decreasing_by
  · have := splitPoint_lt (show 2 ≤ bn - a by omega)
    have := splitPoint_pos (bn - a)
    omega
  · have := splitPoint_pos (bn - a)
    omega

/-- Sibling interval sequence consumed on the walk from the anchor up to the
root of the new subtree `[a, bn)`. -/
def stateSibs (a mm bn : Nat) : List (Nat × Nat) :=
  if h : a < mm ∧ mm < bn then
    let K := a + splitPoint (bn - a)
    if mm = K then [(mm, bn)]
    else if mm < K then stateSibs a mm K ++ [(K, bn)]
    else stateSibs K mm bn ++ [(a, K)]
  else []
termination_by bn - a
decreasing_by
  · have := splitPoint_lt (show 2 ≤ bn - a by omega)
    have := splitPoint_pos (bn - a)
    omega
  · have := splitPoint_pos (bn - a)
    omega

/-- Length of the right spine from the last leaf of `[c, d)` to its root. -/
def rsLen (c d : Nat) : Nat :=
  if 2 ≤ d - c then rsLen (c + splitPoint (d - c)) d + 1 else 0
termination_by d - c
decreasing_by
  have := splitPoint_pos (d - c)
  omega

lemma stateSibs_length_le : ∀ s a mm bn, bn - a = s → (stateSibs a mm bn).length ≤ bn - a := by
  intro s
  induction s using Nat.strong_induction_on with
  | _ s ih =>
  intro a mm bn hs
  rw [stateSibs]
  by_cases h : a < mm ∧ mm < bn
  · have hsp := splitPoint_pos (bn - a)
    have hsl := splitPoint_lt (show 2 ≤ bn - a by omega)
    simp only [dif_pos h]
    by_cases h1 : mm = a + splitPoint (bn - a)
    · simp only [if_pos h1]
      simp only [List.length_cons, List.length_nil]
      omega
    · simp only [if_neg h1]
      by_cases h2 : mm < a + splitPoint (bn - a)
      · simp only [if_pos h2]
        have := ih (a + splitPoint (bn - a) - a) (by omega) a mm (a + splitPoint (bn - a)) rfl
        simp only [List.length_append, List.length_cons, List.length_nil]
        omega
      · simp only [if_neg h2]
        have := ih (bn - (a + splitPoint (bn - a))) (by omega) (a + splitPoint (bn - a)) mm bn rfl
        simp only [List.length_append, List.length_cons, List.length_nil]
        omega
  · simp [dif_neg h]

lemma rsLen_le : ∀ s c d, d - c = s → rsLen c d ≤ d - c := by
  intro s
  induction s using Nat.strong_induction_on with
  | _ s ih =>
  intro c d hs
  rw [rsLen]
  by_cases h : 2 ≤ d - c
  · have hsp := splitPoint_pos (d - c)
    have hsl := splitPoint_lt (show 2 ≤ d - c by omega)
    simp only [if_pos h]
    have := ih (d - (c + splitPoint (d - c))) (by omega) (c + splitPoint (d - c)) d rfl
    omega
  · simp [h]

/-- For a power-of-two old size the anchor walk never leaves the left
spine. -/
lemma anchorStart_pow2 : ∀ bn mm, (∃ e, mm = 2 ^ e) → 0 < mm → mm < bn →
    anchorStart 0 mm bn = 0 := by
  intro bn
  induction bn using Nat.strong_induction_on with
  | _ bn ih =>
  intro mm hpow hm hbn
  rw [anchorStart]
  have h : 0 < mm ∧ mm < bn := ⟨hm, hbn⟩
  simp only [dif_pos h, Nat.zero_add]
  obtain ⟨e, rfl⟩ := hpow
  have hle : 2 ^ e ≤ splitPoint (bn - 0) := pow_le_splitPoint (by omega)
  by_cases h1 : 2 ^ e = splitPoint (bn - 0)
  · simp only [Nat.sub_zero] at h1 ⊢
    simp [h1]
  · have h2 : 2 ^ e < splitPoint (bn - 0) := by omega
    have hsl := splitPoint_lt (show 2 ≤ bn - 0 by omega)
    simp only [Nat.sub_zero] at h2 hsl ⊢
    rw [if_neg (by omega), if_pos h2]
    exact ih (splitPoint bn) (by omega) (2 ^ e) ⟨e, rfl⟩ hm h2

end CtMerkle

namespace CtMerkle

lemma anchorStart_terminal {a mm bn : Nat} (h : a < mm ∧ mm < bn)
    (h1 : mm = a + splitPoint (bn - a)) : anchorStart a mm bn = a := by
  rw [anchorStart]
  simp only [dif_pos h, if_pos h1]

lemma anchorStart_left {a mm bn : Nat} (h : a < mm ∧ mm < bn)
    (h1 : mm ≠ a + splitPoint (bn - a)) (h2 : mm < a + splitPoint (bn - a)) :
    anchorStart a mm bn = anchorStart a mm (a + splitPoint (bn - a)) := by
  rw [anchorStart]
  simp only [dif_pos h, if_neg h1, if_pos h2]

lemma anchorStart_right {a mm bn : Nat} (h : a < mm ∧ mm < bn)
    (h1 : mm ≠ a + splitPoint (bn - a)) (h2 : ¬ mm < a + splitPoint (bn - a)) :
    anchorStart a mm bn = anchorStart (a + splitPoint (bn - a)) mm bn := by
  rw [anchorStart]
  simp only [dif_pos h, if_neg h1, if_neg h2]

lemma stateSibs_terminal {a mm bn : Nat} (h : a < mm ∧ mm < bn)
    (h1 : mm = a + splitPoint (bn - a)) : stateSibs a mm bn = [(mm, bn)] := by
  rw [stateSibs]
  simp only [dif_pos h, if_pos h1]

lemma stateSibs_left {a mm bn : Nat} (h : a < mm ∧ mm < bn)
    (h1 : mm ≠ a + splitPoint (bn - a)) (h2 : mm < a + splitPoint (bn - a)) :
    stateSibs a mm bn =
      stateSibs a mm (a + splitPoint (bn - a)) ++ [(a + splitPoint (bn - a), bn)] := by
  rw [stateSibs]
  simp only [dif_pos h, if_neg h1, if_pos h2]

lemma stateSibs_right {a mm bn : Nat} (h : a < mm ∧ mm < bn)
    (h1 : mm ≠ a + splitPoint (bn - a)) (h2 : ¬ mm < a + splitPoint (bn - a)) :
    stateSibs a mm bn =
      stateSibs (a + splitPoint (bn - a)) mm bn ++ [(a, a + splitPoint (bn - a))] := by
  rw [stateSibs]
  simp only [dif_pos h, if_neg h1, if_neg h2]

/-- Invariants of the divergence-state recursion: the anchor interval
`[anchorStart a m bn, m)` is a node of both trees, it is the left child of a
new-tree node, and (unless it starts at zero) it is the right child of an
old-tree node. -/
lemma anchorFacts_aux (n m : Nat) :
    ∀ s a bn, bn - a = s →
      Sub 0 n a bn → Sub 0 m a m → a < m → m < bn →
      (a = 0 ∨ ∃ pa, Sub 0 m pa m ∧ pa < a ∧ a - pa = splitPoint (m - pa)) →
      (∃ bR, Sub 0 n (anchorStart a m bn) bR ∧ m < bR ∧
          m = anchorStart a m bn + splitPoint (bR - anchorStart a m bn)) ∧
        Sub 0 m (anchorStart a m bn) m ∧
        (anchorStart a m bn = 0 ∨
          ∃ pa, Sub 0 m pa m ∧ pa < anchorStart a m bn ∧
            anchorStart a m bn - pa = splitPoint (m - pa)) := by
  intro s
  induction s using Nat.strong_induction_on with
  | _ s ih =>
  intro a bn hs hn hm ham hmbn hop
  have hcond : a < m ∧ m < bn := ⟨ham, hmbn⟩
  have h2bn : 2 ≤ bn - a := by omega
  have hsp := splitPoint_pos (bn - a)
  have hsl := splitPoint_lt (show 2 ≤ bn - a by omega)
  by_cases h1 : m = a + splitPoint (bn - a)
  · rw [anchorStart_terminal hcond h1]
    exact ⟨⟨bn, hn, hmbn, h1⟩, hm, hop⟩
  · by_cases h2 : m < a + splitPoint (bn - a)
    · rw [anchorStart_left hcond h1 h2]
      exact ih (a + splitPoint (bn - a) - a) (by omega) a (a + splitPoint (bn - a)) rfl
        (Sub.left hn h2bn) hm ham h2 hop
    · rw [anchorStart_right hcond h1 h2]
      have hKm : a + splitPoint (bn - a) < m := by omega
      have hshare := splitPoint_shared h2bn hKm hmbn
      have hm2 : 2 ≤ m - a := by omega
      have hsubK : Sub 0 m (a + splitPoint (m - a)) m := Sub.right hm hm2
      rw [hshare] at hsubK
      exact ih (bn - (a + splitPoint (bn - a))) (by omega) (a + splitPoint (bn - a)) bn rfl
        (Sub.right hn h2bn) hsubK hKm hmbn
        (Or.inr ⟨a, hm, by omega, by omega⟩)

/-- Node-store lookup at the root of an embedded subtree of a well-formed
tree. -/
lemma internal_get {D : Type} (leafH : List Nat → D) (nodeH : D → D → D)
    (T : CtMerkleTree D) (hwf : wfTree leafH nodeH T) {c d : Nat}
    (hsub : Sub 0 T.leaves.length c d) (hn : 0 < T.leaves.length) :
    T.internal_nodes.get? (rootIdxAB c d) =
      some (hashRange leafH nodeH T.leaves c d) := by
  obtain ⟨h0c, hcd, hdn⟩ := hsub.bounds hn
  obtain ⟨hlo, hhi⟩ := root_span hsub hn
  have hlt : rootIdxAB c d < 2 * T.leaves.length - 1 := by omega
  rw [hwf, List.get?_eq_getElem?, List.getElem?_map, List.getElem?_range hlt]
  simp only [Option.map_some']
  rw [digestOfIdx, intervalIn_of_sub hsub hn]

end CtMerkle

namespace CtMerkle

/-- Inside a subtree common to both trees, the lockstep divergence walk
climbs the right spine from the last leaf to the subtree root. -/
lemma climb_aux (n m : Nat) (hn : 0 < n) (hm : 0 < m) :
    ∀ s c d, d - c = s → Sub 0 n c d → Sub 0 m c d →
      ∀ fuel, divergeAux n m (rsLen c d + fuel) (2 * (d - 1)) (2 * (d - 1)) =
        divergeAux n m fuel (rootIdxAB c d) (rootIdxAB c d) := by
  intro s
  induction s using Nat.strong_induction_on with
  | _ s ih =>
  intro c d hs hsn hsm fuel
  by_cases h1 : 2 ≤ d - c
  · have hsp := splitPoint_pos (d - c)
    have hsl := splitPoint_lt h1
    have hstep : rsLen c d = rsLen (c + splitPoint (d - c)) d + 1 := by
      rw [rsLen]; simp only [if_pos h1]
    have hsn2 : Sub 0 n (c + splitPoint (d - c)) d := Sub.right hsn h1
    have hsm2 : Sub 0 m (c + splitPoint (d - c)) d := Sub.right hsm h1
    have harith : rsLen c d + fuel = rsLen (c + splitPoint (d - c)) d + (fuel + 1) := by
      omega
    rw [harith, ih (d - (c + splitPoint (d - c))) (by omega) _ d rfl hsn2 hsm2 (fuel + 1)]
    simp only [divergeAux]
    rw [parentIn_right_child hsn h1 hn, parentIn_right_child hsm h1 hm]
    simp
  · obtain ⟨h0c, hcd, hdn⟩ := hsn.bounds hn
    have h0 : rsLen c d = 0 := by rw [rsLen]; simp [h1]
    have he : 2 * (d - 1) = 2 * c := by omega
    rw [h0, Nat.zero_add, he, rootIdxAB_of_small (by omega)]

/-- The full lockstep divergence walk from the last old leaf returns the
anchor: the root of the largest common subtree ending at leaf `m - 1`. -/
lemma diverge_total (n m : Nat) (hn : 0 < n) (hm : 0 < m) (A bR pa : Nat)
    (hAn : Sub 0 n A bR) (hmbR : m < bR) (hterm : m = A + splitPoint (bR - A))
    (hAm : Sub 0 m A m)
    (hpa : Sub 0 m pa m) (hpaA : pa < A) (hpasplit : A - pa = splitPoint (m - pa)) :
    ∀ fuel, divergeAux n m (rsLen A m + 1 + fuel) (2 * (m - 1)) (2 * (m - 1)) =
      some (rootIdxAB A m, rootIdxAB A m) := by
  intro fuel
  have hsplitpos := splitPoint_pos (bR - A)
  have hAltm : A < m := by omega
  have h2bR : 2 ≤ bR - A := by omega
  have hsubnAm : Sub 0 n A m := by
    have h := Sub.left hAn h2bR
    rw [← hterm] at h
    exact h
  have harith : rsLen A m + 1 + fuel = rsLen A m + (fuel + 1) := by omega
  rw [harith, climb_aux n m hn hm (m - A) A m rfl hsubnAm hAm (fuel + 1)]
  simp only [divergeAux]
  have hpn : parentIn 0 n (rootIdxAB A m) = some (rootIdxAB A bR) := by
    have h := parentIn_left_child hAn h2bR hn
    rw [← hterm] at h
    exact h
  have hpm : parentIn 0 m (rootIdxAB A m) = some (rootIdxAB pa m) := by
    have h2pa : 2 ≤ m - pa := by omega
    have h := parentIn_right_child hpa h2pa hm
    have heq : pa + splitPoint (m - pa) = A := by omega
    rw [heq] at h
    exact h
  rw [hpn, hpm]
  have hne : rootIdxAB A bR ≠ rootIdxAB pa m := by
    have h2pa : 2 ≤ m - pa := by omega
    rw [rootIdxAB_of_big h2bR, rootIdxAB_of_big h2pa]
    omega
  simp [hne]

/-- The copath-collection walk of `consistency_proof`, one divergence state
at a time: from the anchor up to the root of the current new subtree the
loop appends exactly the digests of `stateSibs`. -/
lemma copath_state {D : Type} (leafH : List Nat → D) (nodeH : D → D → D)
    (T : CtMerkleTree D) (hwf : wfTree leafH nodeH T) (m : Nat)
    (hm : 0 < m) (hn0 : 0 < T.leaves.length) :
    ∀ s a bn, bn - a = s →
      Sub 0 T.leaves.length a bn → Sub 0 m a m → a < m → m < bn →
      ∀ fuel acc,
        copathLoop T T.leaves.length (root_idx T.leaves.length)
            ((stateSibs a m bn).length + fuel) (rootIdxAB (anchorStart a m bn) m) acc =
          copathLoop T T.leaves.length (root_idx T.leaves.length) fuel (rootIdxAB a bn)
            (acc ++ (stateSibs a m bn).map
              (fun pq => hashRange leafH nodeH T.leaves pq.1 pq.2)) := by
  intro s
  induction s using Nat.strong_induction_on with
  | _ s ih =>
  intro a bn hs hsn hsm ham hmbn fuel acc
  have hcond : a < m ∧ m < bn := ⟨ham, hmbn⟩
  have h2bn : 2 ≤ bn - a := by omega
  have hsp := splitPoint_pos (bn - a)
  have hsl := splitPoint_lt (show 2 ≤ bn - a by omega)
  obtain ⟨h0a, habn, hbnn⟩ := hsn.bounds hn0
  by_cases h1 : m = a + splitPoint (bn - a)
  · rw [anchorStart_terminal hcond h1, stateSibs_terminal hcond h1]
    have harith : ([(m, bn)] : List (Nat × Nat)).length + fuel = fuel + 1 := by
      simp only [List.length_cons, List.length_nil]
      omega
    rw [harith]
    simp only [copathLoop]
    have hsubnam : Sub 0 T.leaves.length a m := by
      have h := Sub.left hsn h2bn
      rw [← h1] at h
      exact h
    have hsubR : Sub 0 T.leaves.length m bn := by
      have h := Sub.right hsn h2bn
      rw [← h1] at h
      exact h
    have hne : rootIdxAB a m ≠ root_idx T.leaves.length := by
      rw [root_idx]
      exact rootIdx_ne hsubnam (Sub.refl 0 T.leaves.length) hn0
        (by rintro ⟨e1, e2⟩; omega)
    have hsib : siblingIn 0 T.leaves.length (rootIdxAB a m) = some (rootIdxAB m bn) := by
      have h := siblingIn_left_child hsn h2bn hn0
      rw [← h1] at h
      exact h
    have hpar : parentIn 0 T.leaves.length (rootIdxAB a m) = some (rootIdxAB a bn) := by
      have h := parentIn_left_child hsn h2bn hn0
      rw [← h1] at h
      exact h
    rw [if_neg hne]
    simp only [hsib, hpar, internal_get leafH nodeH T hwf hsubR hn0]
    simp
  · by_cases h2 : m < a + splitPoint (bn - a)
    · rw [anchorStart_left hcond h1 h2, stateSibs_left hcond h1 h2]
      have harith : (stateSibs a m (a + splitPoint (bn - a)) ++
          [(a + splitPoint (bn - a), bn)]).length + fuel =
          (stateSibs a m (a + splitPoint (bn - a))).length + (fuel + 1) := by
        simp only [List.length_append, List.length_cons, List.length_nil]
        omega
      rw [harith,
        ih (a + splitPoint (bn - a) - a) (by omega) a (a + splitPoint (bn - a)) rfl
          (Sub.left hsn h2bn) hsm ham h2 (fuel + 1) acc]
      simp only [copathLoop]
      have hne : rootIdxAB a (a + splitPoint (bn - a)) ≠ root_idx T.leaves.length := by
        rw [root_idx]
        exact rootIdx_ne (Sub.left hsn h2bn) (Sub.refl 0 T.leaves.length) hn0
          (by rintro ⟨e1, e2⟩; omega)
      rw [if_neg hne]
      simp only [siblingIn_left_child hsn h2bn hn0, parentIn_left_child hsn h2bn hn0,
        internal_get leafH nodeH T hwf (Sub.right hsn h2bn) hn0]
      simp
    · rw [anchorStart_right hcond h1 h2, stateSibs_right hcond h1 h2]
      have hKm : a + splitPoint (bn - a) < m := by omega
      have harith : (stateSibs (a + splitPoint (bn - a)) m bn ++
          [(a, a + splitPoint (bn - a))]).length + fuel =
          (stateSibs (a + splitPoint (bn - a)) m bn).length + (fuel + 1) := by
        simp only [List.length_append, List.length_cons, List.length_nil]
        omega
      have hshare := splitPoint_shared h2bn hKm hmbn
      have hm2 : 2 ≤ m - a := by omega
      have hsubK : Sub 0 m (a + splitPoint (bn - a)) m := by
        have h := Sub.right hsm hm2
        rw [hshare] at h
        exact h
      rw [harith,
        ih (bn - (a + splitPoint (bn - a))) (by omega) (a + splitPoint (bn - a)) bn rfl
          (Sub.right hsn h2bn) hsubK hKm hmbn (fuel + 1) acc]
      simp only [copathLoop]
      have hne : rootIdxAB (a + splitPoint (bn - a)) bn ≠ root_idx T.leaves.length := by
        rw [root_idx]
        exact rootIdx_ne (Sub.right hsn h2bn) (Sub.refl 0 T.leaves.length) hn0
          (by rintro ⟨e1, e2⟩; omega)
      rw [if_neg hne]
      simp only [siblingIn_right_child hsn h2bn hn0, parentIn_right_child hsn h2bn hn0,
        internal_get leafH nodeH T hwf (Sub.left hsn h2bn) hn0]
      simp

end CtMerkle

namespace CtMerkle

/-- One verifier step out of a left child: the chunk is the right sibling's
digest, it folds into the new-tree hash only (the old tree's copath is not
touched). -/
lemma verify_step_left {D : Type} [DecidableEq D] (leafH : List Nat → D)
    (nodeH : D → D → D) (L : List (List Nat)) (n m : Nat) (hn : 0 < n) (hm : 0 < m)
    {a bn : Nat} (hsn : Sub 0 n a bn) (h2bn : 2 ≤ bn - a)
    (hsm : Sub 0 m a m) (ham : a < m)
    (hop : a = 0 ∨ ∃ pa, Sub 0 m pa m ∧ pa < a ∧ a - pa = splitPoint (m - pa))
    (rest : List D) :
    verifyLoop nodeH n m (root_idx m)
        (hashRange leafH nodeH L (a + splitPoint (bn - a)) bn :: rest)
        (rootIdxAB a (a + splitPoint (bn - a)))
        (hashRange leafH nodeH L a (a + splitPoint (bn - a)))
        (rootIdxAB a m) (hashRange leafH nodeH L a m) =
      verifyLoop nodeH n m (root_idx m) rest (rootIdxAB a bn)
        (hashRange leafH nodeH L a bn) (rootIdxAB a m)
        (hashRange leafH nodeH L a m) := by
  have hsp := splitPoint_pos (bn - a)
  have hsl := splitPoint_lt h2bn
  obtain ⟨h0a, habn, hbnn⟩ := hsn.bounds hn
  have hsib := siblingIn_left_child hsn h2bn hn
  have hpar := parentIn_left_child hsn h2bn hn
  obtain ⟨ll1, ll2⟩ := rootIdxAB_bounds (show a < a + splitPoint (bn - a) by omega)
  obtain ⟨rr1, rr2⟩ := rootIdxAB_bounds (show a + splitPoint (bn - a) < bn by omega)
  have hproot : rootIdxAB a bn = 2 * (a + splitPoint (bn - a)) - 1 := rootIdxAB_of_big h2bn
  have hlt : rootIdxAB a (a + splitPoint (bn - a)) < rootIdxAB a bn := by omega
  have hsplit : nodeH (hashRange leafH nodeH L a (a + splitPoint (bn - a)))
      (hashRange leafH nodeH L (a + splitPoint (bn - a)) bn) =
      hashRange leafH nodeH L a bn := (hashRange_split leafH nodeH L h2bn).symm
  simp only [verifyLoop, hsib, hpar]
  rw [if_pos hlt, hsplit]
  rcases hop with rfl | ⟨pa, hpa, hpalt, hpasp⟩
  · rw [if_pos (show rootIdxAB 0 m = root_idx m from rfl)]
  · have hane : rootIdxAB a m ≠ root_idx m := by
      rw [root_idx]
      exact rootIdx_ne hsm (Sub.refl 0 m) hm (by rintro ⟨e1, e2⟩; omega)
    rw [if_neg hane]
    have h2pa : 2 ≤ m - pa := by omega
    have heqpa : pa + splitPoint (m - pa) = a := by omega
    have hosib : siblingIn 0 m (rootIdxAB a m) = some (rootIdxAB pa a) := by
      have h := siblingIn_right_child hpa h2pa hm
      rw [heqpa] at h
      exact h
    have hopar : parentIn 0 m (rootIdxAB a m) = some (rootIdxAB pa m) := by
      have h := parentIn_right_child hpa h2pa hm
      rw [heqpa] at h
      exact h
    obtain ⟨s1, s2⟩ := rootIdxAB_bounds (show pa < a by omega)
    have hsibne : rootIdxAB (a + splitPoint (bn - a)) bn ≠ rootIdxAB pa a := by omega
    simp only [hosib, hopar]
    rw [if_neg hsibne]

/-- One verifier step out of a right child: the chunk is the left sibling's
digest, and it folds into both the new-tree hash and the old-tree hash. -/
lemma verify_step_right {D : Type} [DecidableEq D] (leafH : List Nat → D)
    (nodeH : D → D → D) (L : List (List Nat)) (n m : Nat) (hn : 0 < n) (hm : 0 < m)
    {a bn : Nat} (hsn : Sub 0 n a bn) (h2bn : 2 ≤ bn - a)
    (hsm : Sub 0 m a m) (ham : a < m)
    (hKm : a + splitPoint (bn - a) < m) (hmbn : m < bn)
    (rest : List D) :
    verifyLoop nodeH n m (root_idx m)
        (hashRange leafH nodeH L a (a + splitPoint (bn - a)) :: rest)
        (rootIdxAB (a + splitPoint (bn - a)) bn)
        (hashRange leafH nodeH L (a + splitPoint (bn - a)) bn)
        (rootIdxAB (a + splitPoint (bn - a)) m)
        (hashRange leafH nodeH L (a + splitPoint (bn - a)) m) =
      verifyLoop nodeH n m (root_idx m) rest (rootIdxAB a bn)
        (hashRange leafH nodeH L a bn) (rootIdxAB a m)
        (hashRange leafH nodeH L a m) := by
  have hsp := splitPoint_pos (bn - a)
  have hsl := splitPoint_lt h2bn
  obtain ⟨h0a, habn, hbnn⟩ := hsn.bounds hn
  have hshare := splitPoint_shared h2bn hKm hmbn
  have hm2 : 2 ≤ m - a := by omega
  have hsubK : Sub 0 m (a + splitPoint (bn - a)) m := by
    have h := Sub.right hsm hm2
    rw [hshare] at h
    exact h
  have hsib := siblingIn_right_child hsn h2bn hn
  have hpar := parentIn_right_child hsn h2bn hn
  obtain ⟨rr1, rr2⟩ := rootIdxAB_bounds (show a + splitPoint (bn - a) < bn by omega)
  have hproot : rootIdxAB a bn = 2 * (a + splitPoint (bn - a)) - 1 := rootIdxAB_of_big h2bn
  have hnlt : ¬ (rootIdxAB (a + splitPoint (bn - a)) bn < rootIdxAB a bn) := by omega
  have hsplit : nodeH (hashRange leafH nodeH L a (a + splitPoint (bn - a)))
      (hashRange leafH nodeH L (a + splitPoint (bn - a)) bn) =
      hashRange leafH nodeH L a bn := (hashRange_split leafH nodeH L h2bn).symm
  simp only [verifyLoop, hsib, hpar]
  rw [if_neg hnlt, hsplit]
  have hane : rootIdxAB (a + splitPoint (bn - a)) m ≠ root_idx m := by
    rw [root_idx]
    exact rootIdx_ne hsubK (Sub.refl 0 m) hm (by rintro ⟨e1, e2⟩; omega)
  rw [if_neg hane]
  have hKs : a + splitPoint (m - a) = a + splitPoint (bn - a) := by rw [hshare]
  have hosib : siblingIn 0 m (rootIdxAB (a + splitPoint (bn - a)) m) =
      some (rootIdxAB a (a + splitPoint (bn - a))) := by
    have h := siblingIn_right_child hsm hm2 hm
    rw [hKs] at h
    exact h
  have hopar : parentIn 0 m (rootIdxAB (a + splitPoint (bn - a)) m) =
      some (rootIdxAB a m) := by
    have h := parentIn_right_child hsm hm2 hm
    rw [hKs] at h
    exact h
  simp only [hosib, hopar]
  simp only [if_true]
  obtain ⟨mm1, mm2⟩ := rootIdxAB_bounds (show a + splitPoint (bn - a) < m by omega)
  have hoproot : rootIdxAB a m = 2 * (a + splitPoint (bn - a)) - 1 := by
    rw [rootIdxAB_of_big hm2, hKs]
  have honlt : ¬ (rootIdxAB (a + splitPoint (bn - a)) m < rootIdxAB a m) := by omega
  rw [if_neg honlt]
  have hosplit : nodeH (hashRange leafH nodeH L a (a + splitPoint (bn - a)))
      (hashRange leafH nodeH L (a + splitPoint (bn - a)) m) =
      hashRange leafH nodeH L a m := by
    have h := (hashRange_split leafH nodeH L hm2).symm
    rw [hKs] at h
    exact h
  rw [hosplit]

end CtMerkle

namespace CtMerkle

/-- The verifier's main loop, one divergence state at a time: consuming the
digests of `stateSibs` carries the running pair from the anchor to the pair
(new-subtree root hash, old-subtree root hash). -/
lemma verifyLoop_state {D : Type} [DecidableEq D] (leafH : List Nat → D)
    (nodeH : D → D → D) (L : List (List Nat)) (n m : Nat) (hn : 0 < n) (hm : 0 < m) :
    ∀ s a bn, bn - a = s →
      Sub 0 n a bn → Sub 0 m a m → a < m → m < bn →
      (a = 0 ∨ ∃ pa, Sub 0 m pa m ∧ pa < a ∧ a - pa = splitPoint (m - pa)) →
      ∀ rest,
        verifyLoop nodeH n m (root_idx m)
            ((stateSibs a m bn).map (fun pq => hashRange leafH nodeH L pq.1 pq.2) ++ rest)
            (rootIdxAB (anchorStart a m bn) m)
            (hashRange leafH nodeH L (anchorStart a m bn) m)
            (rootIdxAB (anchorStart a m bn) m)
            (hashRange leafH nodeH L (anchorStart a m bn) m) =
          verifyLoop nodeH n m (root_idx m) rest
            (rootIdxAB a bn) (hashRange leafH nodeH L a bn)
            (rootIdxAB a m) (hashRange leafH nodeH L a m) := by
  intro s
  induction s using Nat.strong_induction_on with
  | _ s ih =>
  intro a bn hs hsn hsm ham hmbn hop rest
  have hcond : a < m ∧ m < bn := ⟨ham, hmbn⟩
  have h2bn : 2 ≤ bn - a := by omega
  have hsp := splitPoint_pos (bn - a)
  have hsl := splitPoint_lt (show 2 ≤ bn - a by omega)
  by_cases h1 : m = a + splitPoint (bn - a)
  · rw [anchorStart_terminal hcond h1, stateSibs_terminal hcond h1]
    simp only [List.map_cons, List.map_nil, List.singleton_append]
    have hstep := verify_step_left leafH nodeH L n m hn hm hsn h2bn hsm ham hop rest
    rw [← h1] at hstep
    exact hstep
  · by_cases h2 : m < a + splitPoint (bn - a)
    · rw [anchorStart_left hcond h1 h2, stateSibs_left hcond h1 h2]
      rw [List.map_append, List.append_assoc]
      simp only [List.map_cons, List.map_nil, List.singleton_append]
      rw [ih (a + splitPoint (bn - a) - a) (by omega) a (a + splitPoint (bn - a)) rfl
        (Sub.left hsn h2bn) hsm ham h2 hop
        (hashRange leafH nodeH L (a + splitPoint (bn - a)) bn :: rest)]
      exact verify_step_left leafH nodeH L n m hn hm hsn h2bn hsm ham hop rest
    · rw [anchorStart_right hcond h1 h2, stateSibs_right hcond h1 h2]
      have hKm : a + splitPoint (bn - a) < m := by omega
      have hshare := splitPoint_shared h2bn hKm hmbn
      have hm2 : 2 ≤ m - a := by omega
      have hsubK : Sub 0 m (a + splitPoint (bn - a)) m := by
        have h := Sub.right hsm hm2
        rw [hshare] at h
        exact h
      rw [List.map_append, List.append_assoc]
      simp only [List.map_cons, List.map_nil, List.singleton_append]
      rw [ih (bn - (a + splitPoint (bn - a))) (by omega) (a + splitPoint (bn - a)) bn rfl
        (Sub.right hsn h2bn) hsubK hKm hmbn
        (Or.inr ⟨a, hsm, by omega, by omega⟩)
        (hashRange leafH nodeH L a (a + splitPoint (bn - a)) :: rest)]
      exact verify_step_right leafH nodeH L n m hn hm hsn h2bn hsm ham hKm hmbn rest

end CtMerkle

namespace CtMerkle

lemma stateSibs_ne_nil {a mm bn : Nat} (h1 : a < mm) (h2 : mm < bn) :
    stateSibs a mm bn ≠ [] := by
  rw [stateSibs]
  have hcond : a < mm ∧ mm < bn := ⟨h1, h2⟩
  simp only [dif_pos hcond]
  by_cases hx : mm = a + splitPoint (bn - a)
  · simp [hx]
  · by_cases hy : mm < a + splitPoint (bn - a)
    · simp [hx, hy]
    · simp [hx, hy]

/-- For a non-power-of-two old size the divergence loop of the source
terminates at the anchor, with both subtree facts available. -/
lemma diverge_call {n m : Nat} (hm0 : 0 < m) (hmn : m < n) (hnp : isPow2 m = false) :
    divergeAux n m (n + m + 2) (2 * (m - 1)) (2 * (m - 1)) =
      some (rootIdxAB (anchorStart 0 m n) m, rootIdxAB (anchorStart 0 m n) m) ∧
    Sub 0 n (anchorStart 0 m n) m ∧ Sub 0 m (anchorStart 0 m n) m := by
  have hn0 : 0 < n := by omega
  obtain ⟨⟨bR, hAn, hmbR, hterm⟩, hAm, hopA⟩ :=
    anchorFacts_aux n m (n - 0) 0 n rfl (Sub.refl 0 n) (Sub.refl 0 m) hm0 hmn (Or.inl rfl)
  rcases hopA with hA0 | ⟨pa, hpa, hpalt, hpasp⟩
  · exfalso
    rw [hA0] at hterm
    simp only [Nat.zero_add, Nat.sub_zero] at hterm
    unfold splitPoint at hterm
    have : isPow2 m = true := (isPow2_true_iff m).mpr ⟨Nat.log 2 (bR - 1), hterm⟩
    rw [this] at hnp
    cases hnp
  · obtain ⟨hAle, hAltm, _⟩ := hAm.bounds hm0
    have h2bR : 2 ≤ bR - anchorStart 0 m n := by omega
    have hsubnAm : Sub 0 n (anchorStart 0 m n) m := by
      have h := Sub.left hAn h2bR
      rw [← hterm] at h
      exact h
    have hrs := rsLen_le (m - anchorStart 0 m n) (anchorStart 0 m n) m rfl
    have hfuel : n + m + 2 =
        rsLen (anchorStart 0 m n) m + 1 + (n + m + 1 - rsLen (anchorStart 0 m n) m) := by
      omega
    rw [hfuel]
    exact ⟨diverge_total n m hn0 hm0 (anchorStart 0 m n) bR pa hAn hmbR hterm hAm
      hpa hpalt hpasp _, hsubnAm, hAm⟩

/-- Proof generation for a non-power-of-two old size: the anchor digest
followed by the state siblings. -/
lemma consistency_proof_nonpow2 {D : Type} (leafH : List Nat → D) (nodeH : D → D → D)
    (T : CtMerkleTree D) (hwf : wfTree leafH nodeH T) (m : Nat)
    (hm0 : 0 < m) (hmn : m < T.leaves.length) (hnp : isPow2 m = false) :
    consistency_proof T m =
      some (hashRange leafH nodeH T.leaves (anchorStart 0 m T.leaves.length) m ::
        (stateSibs 0 m T.leaves.length).map
          (fun pq => hashRange leafH nodeH T.leaves pq.1 pq.2)) := by
  have hn0 : 0 < T.leaves.length := by omega
  obtain ⟨hdiv, hsubnAm, hsubmAm⟩ := diverge_call hm0 hmn hnp
  simp only [consistency_proof, if_neg (show ¬ (m = 0) by omega),
    if_neg (show ¬ (m = T.leaves.length) by omega), hnp, Bool.false_eq_true, if_false,
    hdiv, internal_get leafH nodeH T hwf hsubnAm hn0]
  have hlen := stateSibs_length_le (T.leaves.length - 0) 0 m T.leaves.length rfl
  have hfuel : 2 * T.leaves.length + 2 =
      (stateSibs 0 m T.leaves.length).length + (2 * T.leaves.length + 2 -
        (stateSibs 0 m T.leaves.length).length) := by omega
  rw [hfuel, copath_state leafH nodeH T hwf m hm0 hn0 (T.leaves.length - 0) 0
    T.leaves.length rfl (Sub.refl 0 T.leaves.length) (Sub.refl 0 m) hm0 hmn
    (2 * T.leaves.length + 2 - (stateSibs 0 m T.leaves.length).length)
    [hashRange leafH nodeH T.leaves (anchorStart 0 m T.leaves.length) m]]
  obtain ⟨k, hk⟩ : ∃ k, 2 * T.leaves.length + 2 -
      (stateSibs 0 m T.leaves.length).length = k + 1 :=
    ⟨2 * T.leaves.length + 1 - (stateSibs 0 m T.leaves.length).length, by omega⟩
  rw [hk]
  simp only [copathLoop]
  rw [if_pos (show rootIdxAB 0 T.leaves.length = root_idx T.leaves.length from rfl)]
  simp

/-- Proof generation for a power-of-two old size: no anchor digest, just
the state siblings. -/
lemma consistency_proof_pow2 {D : Type} (leafH : List Nat → D) (nodeH : D → D → D)
    (T : CtMerkleTree D) (hwf : wfTree leafH nodeH T) (m : Nat)
    (hm0 : 0 < m) (hmn : m < T.leaves.length) (hp : isPow2 m = true) :
    consistency_proof T m =
      some ((stateSibs 0 m T.leaves.length).map
        (fun pq => hashRange leafH nodeH T.leaves pq.1 pq.2)) := by
  have hn0 : 0 < T.leaves.length := by omega
  have hA0 : anchorStart 0 m T.leaves.length = 0 :=
    anchorStart_pow2 T.leaves.length m ((isPow2_true_iff m).mp hp) hm0 hmn
  simp only [consistency_proof, if_neg (show ¬ (m = 0) by omega),
    if_neg (show ¬ (m = T.leaves.length) by omega), hp, if_true]
  have hroot : root_idx m = rootIdxAB (anchorStart 0 m T.leaves.length) m := by
    rw [hA0]; rfl
  rw [hroot]
  have hlen := stateSibs_length_le (T.leaves.length - 0) 0 m T.leaves.length rfl
  have hfuel : 2 * T.leaves.length + 2 =
      (stateSibs 0 m T.leaves.length).length + (2 * T.leaves.length + 2 -
        (stateSibs 0 m T.leaves.length).length) := by omega
  rw [hfuel, copath_state leafH nodeH T hwf m hm0 hn0 (T.leaves.length - 0) 0
    T.leaves.length rfl (Sub.refl 0 T.leaves.length) (Sub.refl 0 m) hm0 hmn
    (2 * T.leaves.length + 2 - (stateSibs 0 m T.leaves.length).length) []]
  obtain ⟨k, hk⟩ : ∃ k, 2 * T.leaves.length + 2 -
      (stateSibs 0 m T.leaves.length).length = k + 1 :=
    ⟨2 * T.leaves.length + 1 - (stateSibs 0 m T.leaves.length).length, by omega⟩
  rw [hk]
  simp only [copathLoop]
  rw [if_pos (show rootIdxAB 0 T.leaves.length = root_idx T.leaves.length from rfl)]
  simp

end CtMerkle

namespace CtMerkle

/-- C1: for every well-formed tree with at least one leaf and every
`old_size` between `1` and the leaf count, verifying the generated
consistency proof succeeds: `verify_consistency` of the tree root, the root
of the first `old_size` leaves and the generated proof returns `Ok`. -/
theorem claim_C1 {D : Type} [DecidableEq D] (leafH : List Nat → D) (nodeH : D → D → D)
    (T : CtMerkleTree D) (hwf : wfTree leafH nodeH T) (m : Nat)
    (hm1 : 1 ≤ m) (hmn : m ≤ T.leaves.length) :
    ∃ P, consistency_proof T m = some P ∧
      verify_consistency nodeH (treeRootHash leafH nodeH T.leaves)
        (treeRootHash leafH nodeH (T.leaves.take m)) P = .ok := by
  by_cases hcase : m = T.leaves.length
  · refine ⟨[], ?_, ?_⟩
    · have hne : T.leaves ≠ [] := by
        intro h
        rw [h] at hcase
        simp at hcase
        omega
      simp [consistency_proof, show ¬ (m = 0) by omega, hcase, hne]
    · subst hcase
      rw [List.take_length]
      simp [verify_consistency, show ¬ (T.leaves.length = 0) by omega, treeRootHash]
  · have hlt : m < T.leaves.length := by omega
    have hm0 : 0 < m := by omega
    have hn0 : 0 < T.leaves.length := by omega
    have hlen : (T.leaves.take m).length = m := by
      rw [List.length_take]; omega
    have hold : treeRootHash leafH nodeH (T.leaves.take m) =
        (⟨hashRange leafH nodeH T.leaves 0 m, m⟩ : RootHash D) := by
      rw [treeRootHash, hlen, hashRange_take leafH nodeH T.leaves hm0 (le_refl m)]
    rw [hold]
    by_cases hpow : isPow2 m
    · refine ⟨_, consistency_proof_pow2 leafH nodeH T hwf m hm0 hlt hpow, ?_⟩
      have hA0 : anchorStart 0 m T.leaves.length = 0 :=
        anchorStart_pow2 T.leaves.length m ((isPow2_true_iff m).mp hpow) hm0 hlt
      have hPne : (stateSibs 0 m T.leaves.length).map
          (fun pq => hashRange leafH nodeH T.leaves pq.1 pq.2) ≠ [] := by
        simp only [ne_eq, List.map_eq_nil_iff]
        exact stateSibs_ne_nil hm0 hlt
      have hvs := verifyLoop_state leafH nodeH T.leaves T.leaves.length m hn0 hm0
        (T.leaves.length - 0) 0 T.leaves.length rfl (Sub.refl 0 T.leaves.length)
        (Sub.refl 0 m) hm0 hlt (Or.inl rfl) []
      rw [hA0, List.append_nil] at hvs
      simp only [verify_consistency, treeRootHash, if_neg (show ¬ (m = 0) by omega)]
      rw [if_neg (fun hand => hPne hand.2)]
      simp only [hpow, if_true]
      unfold root_idx at hvs ⊢
      rw [hvs]
      simp only [verifyLoop]
      simp
    · have hnp : isPow2 m = false := by
        cases hx : isPow2 m
        · rfl
        · rw [hx] at hpow; cases hpow rfl
      refine ⟨_, consistency_proof_nonpow2 leafH nodeH T hwf m hm0 hlt hnp, ?_⟩
      obtain ⟨hdiv, hsubnAm, hsubmAm⟩ := diverge_call hm0 hlt hnp
      have hvs := verifyLoop_state leafH nodeH T.leaves T.leaves.length m hn0 hm0
        (T.leaves.length - 0) 0 T.leaves.length rfl (Sub.refl 0 T.leaves.length)
        (Sub.refl 0 m) hm0 hlt (Or.inl rfl) []
      rw [List.append_nil] at hvs
      simp only [verify_consistency, treeRootHash, if_neg (show ¬ (m = 0) by omega)]
      rw [if_neg (fun hand => List.cons_ne_nil _ _ hand.2)]
      simp only [hnp, Bool.false_eq_true, if_false, hdiv]
      unfold root_idx at hvs ⊢
      rw [hvs]
      simp only [verifyLoop]
      simp

end CtMerkle

namespace CtMerkle

/-- The running new-tree hash of the verifier loop, in isolation. -/
def newFold {D : Type} (nodeH : D → D → D) (nT : Nat) : List D → Nat → D → Option D
  | [], _, th => some th
  | c :: rest, ti, th =>
    match siblingIn 0 nT ti, parentIn 0 nT ti with
    | some _, some p => newFold nodeH nT rest p (if ti < p then nodeH th c else nodeH c th)
    | _, _ => none

/-- The first component of a successful verifier loop is the isolated
new-tree fold. -/
lemma verifyLoop_fst {D : Type} [DecidableEq D] (nodeH : D → D → D) (nT mO oRI : Nat) :
    ∀ (chunks : List D) ti th oi oh thr ohr,
      verifyLoop nodeH nT mO oRI chunks ti th oi oh = some (thr, ohr) →
      newFold nodeH nT chunks ti th = some thr := by
  intro chunks
  induction chunks with
  | nil =>
    intro ti th oi oh thr ohr h
    simp only [verifyLoop, Option.some_inj, Prod.mk.injEq] at h
    simp only [newFold, h.1]
  | cons c rest ih =>
    intro ti th oi oh thr ohr h
    simp only [verifyLoop] at h
    simp only [newFold]
    cases hsib : siblingIn 0 nT ti with
    | none =>
      rw [hsib] at h
      cases hpar : parentIn 0 nT ti <;> rw [hpar] at h <;> simp at h
    | some sib =>
      rw [hsib] at h
      cases hpar : parentIn 0 nT ti with
      | none => rw [hpar] at h; simp at h
      | some p =>
        rw [hpar] at h
        simp only [] at h
        by_cases hoi : oi = oRI
        · rw [if_pos hoi] at h
          exact ih _ _ _ _ _ _ h
        · rw [if_neg hoi] at h
          cases hosib : siblingIn 0 mO oi with
          | none =>
            rw [hosib] at h
            cases hopar : parentIn 0 mO oi <;> rw [hopar] at h <;> simp at h
          | some osib =>
            rw [hosib] at h
            cases hopar : parentIn 0 mO oi with
            | none => rw [hopar] at h; simp at h
            | some op =>
              rw [hopar] at h
              simp only [] at h
              by_cases hfire : sib = osib
              · rw [if_pos hfire] at h
                exact ih _ _ _ _ _ _ h
              · rw [if_neg hfire] at h
                exact ih _ _ _ _ _ _ h

/-- The verifier loop's control flow depends only on the indices and the
chunk count, so replacing the digests keeps it successful. -/
lemma verifyLoop_some_of_length {D : Type} [DecidableEq D] (nodeH : D → D → D)
    (nT mO oRI : Nat) :
    ∀ (chunks chunks2 : List D) ti th th2 oi oh oh2 r,
      verifyLoop nodeH nT mO oRI chunks ti th oi oh = some r →
      chunks2.length = chunks.length →
      ∃ r2, verifyLoop nodeH nT mO oRI chunks2 ti th2 oi oh2 = some r2 := by
  intro chunks
  induction chunks with
  | nil =>
    intro chunks2 ti th th2 oi oh oh2 r h hlen
    rw [List.length_nil, List.length_eq_zero] at hlen
    subst hlen
    exact ⟨_, rfl⟩
  | cons c rest ih =>
    intro chunks2 ti th th2 oi oh oh2 r h hlen
    cases chunks2 with
    | nil => simp at hlen
    | cons c2 rest2 =>
      simp only [List.length_cons, Nat.add_right_cancel_iff] at hlen
      simp only [verifyLoop] at h ⊢
      cases hsib : siblingIn 0 nT ti with
      | none =>
        rw [hsib] at h
        cases hpar : parentIn 0 nT ti <;> rw [hpar] at h <;> simp at h
      | some sib =>
        rw [hsib] at h
        cases hpar : parentIn 0 nT ti with
        | none => rw [hpar] at h; simp at h
        | some p =>
          rw [hpar] at h
          simp only [] at h ⊢
          by_cases hoi : oi = oRI
          · rw [if_pos hoi] at h ⊢
            exact ih _ _ _ _ _ _ _ _ h hlen
          · rw [if_neg hoi] at h ⊢
            cases hosib : siblingIn 0 mO oi with
            | none =>
              rw [hosib] at h
              cases hopar : parentIn 0 mO oi <;> rw [hopar] at h <;> simp at h
            | some osib =>
              rw [hosib] at h
              cases hopar : parentIn 0 mO oi with
              | none => rw [hopar] at h; simp at h
              | some op =>
                rw [hopar] at h
                simp only [] at h ⊢
                by_cases hfire : sib = osib
                · rw [if_pos hfire] at h ⊢
                  exact ih _ _ _ _ _ _ _ _ h hlen
                · rw [if_neg hfire] at h ⊢
                  exact ih _ _ _ _ _ _ _ _ h hlen

/-- With an injective combiner, the isolated new-tree fold is injective in
the chunk list and the seed. -/
lemma newFold_inj {D : Type} (nodeH : D → D → D)
    (hinj : ∀ a b c d : D, nodeH a b = nodeH c d → a = c ∧ b = d) (nT : Nat) :
    ∀ (chunks chunks2 : List D) ti th th2 r,
      newFold nodeH nT chunks ti th = some r →
      newFold nodeH nT chunks2 ti th2 = some r →
      chunks2.length = chunks.length →
      chunks2 = chunks ∧ th2 = th := by
  intro chunks
  induction chunks with
  | nil =>
    intro chunks2 ti th th2 r h1 h2 hlen
    rw [List.length_nil, List.length_eq_zero] at hlen
    subst hlen
    simp only [newFold, Option.some_inj] at h1 h2
    exact ⟨rfl, by rw [h2, h1]⟩
  | cons c rest ih =>
    intro chunks2 ti th th2 r h1 h2 hlen
    cases chunks2 with
    | nil => simp at hlen
    | cons c2 rest2 =>
      simp only [List.length_cons, Nat.add_right_cancel_iff] at hlen
      simp only [newFold] at h1 h2
      cases hsib : siblingIn 0 nT ti with
      | none =>
        rw [hsib] at h1
        cases hpar : parentIn 0 nT ti <;> rw [hpar] at h1 <;> simp at h1
      | some sib =>
        rw [hsib] at h1 h2
        cases hpar : parentIn 0 nT ti with
        | none => rw [hpar] at h1; simp at h1
        | some p =>
          rw [hpar] at h1 h2
          simp only [] at h1 h2
          obtain ⟨hrest, hth⟩ := ih rest2 p _ _ r h1 h2 hlen
          by_cases hlt : ti < p
          · simp only [if_pos hlt] at hth
            obtain ⟨e1, e2⟩ := hinj _ _ _ _ hth
            exact ⟨by rw [hrest, e2], e1⟩
          · simp only [if_neg hlt] at hth
            obtain ⟨e1, e2⟩ := hinj _ _ _ _ hth
            exact ⟨by rw [hrest, e1], e2⟩

end CtMerkle

namespace CtMerkle

/-- The verifier loop on the honest digest sequence computes exactly the
two root hashes. -/
lemma verifyLoop_honest {D : Type} [DecidableEq D] (leafH : List Nat → D)
    (nodeH : D → D → D) (L : List (List Nat)) (m : Nat)
    (hm0 : 0 < m) (hlt : m < L.length) :
    verifyLoop nodeH L.length m (root_idx m)
        ((stateSibs 0 m L.length).map (fun pq => hashRange leafH nodeH L pq.1 pq.2))
        (rootIdxAB (anchorStart 0 m L.length) m)
        (hashRange leafH nodeH L (anchorStart 0 m L.length) m)
        (rootIdxAB (anchorStart 0 m L.length) m)
        (hashRange leafH nodeH L (anchorStart 0 m L.length) m) =
      some (hashRange leafH nodeH L 0 L.length, hashRange leafH nodeH L 0 m) := by
  have hn0 : 0 < L.length := by omega
  have hvs := verifyLoop_state leafH nodeH L L.length m hn0 hm0
    (L.length - 0) 0 L.length rfl (Sub.refl 0 L.length) (Sub.refl 0 m) hm0 hlt
    (Or.inl rfl) []
  rw [List.append_nil] at hvs
  rw [hvs]
  simp only [verifyLoop]

lemma set_eq_self_get {α : Type} (l : List α) (i : Nat) (hi : i < l.length) (a : α)
    (h : l.set i a = l) : a = l.get ⟨i, hi⟩ := by
  have h2 : l[i]? = some (l.get ⟨i, hi⟩) := by
    rw [List.getElem?_eq_getElem hi, List.get_eq_getElem]
  have hi2 : i < (l.set i a).length := by rw [List.length_set]; exact hi
  have h1 : (l.set i a)[i]? = some a := by
    rw [List.getElem?_eq_getElem hi2]
    exact congrArg some (List.getElem_set_self _)
  rw [h, h2] at h1
  exact (Option.some.inj h1).symm

/-- C7: corrupting any single digest of an honestly generated nonempty
consistency proof (the roots held fixed) makes `verify_consistency` return
`Failure`, in the idealised digest model where the combiner is free. -/
theorem claim_C7 (T : CtMerkleTree Digest)
    (hwf : wfTree Digest.leafB Digest.nodeB T) (m : Nat)
    (hm1 : 1 ≤ m) (hlt : m < T.leaves.length)
    (P : List Digest) (hP : consistency_proof T m = some P)
    (i : Nat) (hi : i < P.length) (d : Digest) (hd : d ≠ P.get ⟨i, hi⟩) :
    verify_consistency Digest.nodeB (treeRootHash Digest.leafB Digest.nodeB T.leaves)
      (treeRootHash Digest.leafB Digest.nodeB (T.leaves.take m)) (P.set i d) =
      .err .Failure := by
  have hm0 : 0 < m := hm1
  have hn0 : 0 < T.leaves.length := by omega
  have hinj : ∀ a b c d : Digest, Digest.nodeB a b = Digest.nodeB c d → a = c ∧ b = d := by
    intro a b c d h
    injection h with h1 h2
    exact ⟨h1, h2⟩
  have hold : treeRootHash Digest.leafB Digest.nodeB (T.leaves.take m) =
      (⟨hashRange Digest.leafB Digest.nodeB T.leaves 0 m, m⟩ : RootHash Digest) := by
    rw [treeRootHash, show (T.leaves.take m).length = m by rw [List.length_take]; omega,
      hashRange_take Digest.leafB Digest.nodeB T.leaves hm0 (le_refl m)]
  rw [hold]
  have hhon := verifyLoop_honest Digest.leafB Digest.nodeB T.leaves m hm0 hlt
  have hPset_ne : P.set i d ≠ [] := by
    intro h
    have := congrArg List.length h
    rw [List.length_set] at this
    simp only [List.length_nil] at this
    omega
  by_cases hpow : isPow2 m
  · have hgen := consistency_proof_pow2 Digest.leafB Digest.nodeB T hwf m hm0 hlt hpow
    rw [hP] at hgen
    have hPd := Option.some.inj hgen
    have hA0 : anchorStart 0 m T.leaves.length = 0 :=
      anchorStart_pow2 T.leaves.length m ((isPow2_true_iff m).mp hpow) hm0 hlt
    rw [hA0] at hhon
    rw [← hPd] at hhon
    obtain ⟨⟨th2, oh2⟩, hrun⟩ := verifyLoop_some_of_length Digest.nodeB T.leaves.length m
      (root_idx m) P (P.set i d) (rootIdxAB 0 m)
      (hashRange Digest.leafB Digest.nodeB T.leaves 0 m)
      (hashRange Digest.leafB Digest.nodeB T.leaves 0 m)
      (rootIdxAB 0 m)
      (hashRange Digest.leafB Digest.nodeB T.leaves 0 m)
      (hashRange Digest.leafB Digest.nodeB T.leaves 0 m)
      (hashRange Digest.leafB Digest.nodeB T.leaves 0 T.leaves.length,
        hashRange Digest.leafB Digest.nodeB T.leaves 0 m)
      hhon (List.length_set P i d)
    have hf1 := verifyLoop_fst Digest.nodeB T.leaves.length m (root_idx m) P
      (rootIdxAB 0 m) (hashRange Digest.leafB Digest.nodeB T.leaves 0 m)
      (rootIdxAB 0 m) (hashRange Digest.leafB Digest.nodeB T.leaves 0 m)
      (hashRange Digest.leafB Digest.nodeB T.leaves 0 T.leaves.length)
      (hashRange Digest.leafB Digest.nodeB T.leaves 0 m) hhon
    have hf2 := verifyLoop_fst Digest.nodeB T.leaves.length m (root_idx m) (P.set i d)
      (rootIdxAB 0 m) (hashRange Digest.leafB Digest.nodeB T.leaves 0 m)
      (rootIdxAB 0 m) (hashRange Digest.leafB Digest.nodeB T.leaves 0 m)
      th2 oh2 hrun
    have hthne : th2 ≠ hashRange Digest.leafB Digest.nodeB T.leaves 0 T.leaves.length := by
      intro he
      rw [he] at hf2
      obtain ⟨hls, _⟩ := newFold_inj Digest.nodeB hinj T.leaves.length P (P.set i d)
        (rootIdxAB 0 m) _ _ _ hf1 hf2 (List.length_set P i d)
      exact hd (set_eq_self_get P i hi d hls)
    simp only [verify_consistency, treeRootHash, if_neg (show ¬ (m = 0) by omega)]
    rw [if_neg (fun hand => hPset_ne hand.2)]
    simp only [hpow, if_true]
    unfold root_idx at hrun ⊢
    rw [hrun]
    simp only []
    rw [if_pos (Or.inr hthne)]
  · have hnp : isPow2 m = false := by
      cases hx : isPow2 m
      · rfl
      · rw [hx] at hpow; cases hpow rfl
    have hgen := consistency_proof_nonpow2 Digest.leafB Digest.nodeB T hwf m hm0 hlt hnp
    rw [hP] at hgen
    have hPd := Option.some.inj hgen
    obtain ⟨hdiv, hsubnAm, hsubmAm⟩ := diverge_call hm0 hlt hnp
    cases P with
    | nil => cases hPd
    | cons c0 digs =>
      have hc0 : c0 = hashRange Digest.leafB Digest.nodeB T.leaves
          (anchorStart 0 m T.leaves.length) m := (List.cons.inj hPd).1
      have hdigs : digs = (stateSibs 0 m T.leaves.length).map
          (fun pq => hashRange Digest.leafB Digest.nodeB T.leaves pq.1 pq.2) :=
        (List.cons.inj hPd).2
      rw [← hdigs, ← hc0] at hhon
      cases i with
      | zero =>
        obtain ⟨⟨th2, oh2⟩, hrun⟩ := verifyLoop_some_of_length Digest.nodeB
          T.leaves.length m (root_idx m) digs digs
          (rootIdxAB (anchorStart 0 m T.leaves.length) m) c0 d
          (rootIdxAB (anchorStart 0 m T.leaves.length) m) c0 d
          (hashRange Digest.leafB Digest.nodeB T.leaves 0 T.leaves.length,
            hashRange Digest.leafB Digest.nodeB T.leaves 0 m)
          hhon rfl
        have hf1 := verifyLoop_fst Digest.nodeB T.leaves.length m (root_idx m) digs
          (rootIdxAB (anchorStart 0 m T.leaves.length) m) c0
          (rootIdxAB (anchorStart 0 m T.leaves.length) m) c0
          (hashRange Digest.leafB Digest.nodeB T.leaves 0 T.leaves.length)
          (hashRange Digest.leafB Digest.nodeB T.leaves 0 m) hhon
        have hf2 := verifyLoop_fst Digest.nodeB T.leaves.length m (root_idx m) digs
          (rootIdxAB (anchorStart 0 m T.leaves.length) m) d
          (rootIdxAB (anchorStart 0 m T.leaves.length) m) d th2 oh2 hrun
        have hthne : th2 ≠
            hashRange Digest.leafB Digest.nodeB T.leaves 0 T.leaves.length := by
          intro he
          rw [he] at hf2
          obtain ⟨_, hseed⟩ := newFold_inj Digest.nodeB hinj T.leaves.length digs digs
            (rootIdxAB (anchorStart 0 m T.leaves.length) m) c0 d _ hf1 hf2 rfl
          exact hd (by rw [hseed]; rfl)
        simp only [verify_consistency, treeRootHash, if_neg (show ¬ (m = 0) by omega)]
        rw [if_neg (fun hand => hPset_ne hand.2)]
        simp only [hnp, Bool.false_eq_true, if_false, hdiv]
        simp only [List.set]
        unfold root_idx at hrun ⊢
        rw [hrun]
        simp only []
        rw [if_pos (Or.inr hthne)]
      | succ j =>
        have hj : j < digs.length := by
          simp only [List.length_cons] at hi
          omega
        obtain ⟨⟨th2, oh2⟩, hrun⟩ := verifyLoop_some_of_length Digest.nodeB
          T.leaves.length m (root_idx m) digs (digs.set j d)
          (rootIdxAB (anchorStart 0 m T.leaves.length) m) c0 c0
          (rootIdxAB (anchorStart 0 m T.leaves.length) m) c0 c0
          (hashRange Digest.leafB Digest.nodeB T.leaves 0 T.leaves.length,
            hashRange Digest.leafB Digest.nodeB T.leaves 0 m)
          hhon (List.length_set digs j d)
        have hf1 := verifyLoop_fst Digest.nodeB T.leaves.length m (root_idx m) digs
          (rootIdxAB (anchorStart 0 m T.leaves.length) m) c0
          (rootIdxAB (anchorStart 0 m T.leaves.length) m) c0
          (hashRange Digest.leafB Digest.nodeB T.leaves 0 T.leaves.length)
          (hashRange Digest.leafB Digest.nodeB T.leaves 0 m) hhon
        have hf2 := verifyLoop_fst Digest.nodeB T.leaves.length m (root_idx m)
          (digs.set j d)
          (rootIdxAB (anchorStart 0 m T.leaves.length) m) c0
          (rootIdxAB (anchorStart 0 m T.leaves.length) m) c0 th2 oh2 hrun
        have hthne : th2 ≠
            hashRange Digest.leafB Digest.nodeB T.leaves 0 T.leaves.length := by
          intro he
          rw [he] at hf2
          obtain ⟨hls, _⟩ := newFold_inj Digest.nodeB hinj T.leaves.length digs
            (digs.set j d)
            (rootIdxAB (anchorStart 0 m T.leaves.length) m) c0 c0 _ hf1 hf2
            (List.length_set digs j d)
          exact hd (set_eq_self_get digs j hj d hls)
        simp only [verify_consistency, treeRootHash, if_neg (show ¬ (m = 0) by omega)]
        rw [if_neg (fun hand => hPset_ne hand.2)]
        simp only [hnp, Bool.false_eq_true, if_false, hdiv]
        simp only [List.set]
        unfold root_idx at hrun ⊢
        rw [hrun]
        simp only []
        rw [if_pos (Or.inr hthne)]

end CtMerkle

namespace CtMerkle

/-- Concrete instantiation of C1: the generated consistency proof from two
to three leaves verifies. -/
theorem claim_C1_witness :
    (1 ≤ 2 ∧ 2 ≤ (mkTree Digest.leafB Digest.nodeB [[1],[2],[3]]).leaves.length) ∧
    ∃ P, consistency_proof (mkTree Digest.leafB Digest.nodeB [[1],[2],[3]]) 2 = some P ∧
      verify_consistency Digest.nodeB
        (treeRootHash Digest.leafB Digest.nodeB
          (mkTree Digest.leafB Digest.nodeB [[1],[2],[3]]).leaves)
        (treeRootHash Digest.leafB Digest.nodeB
          ((mkTree Digest.leafB Digest.nodeB [[1],[2],[3]]).leaves.take 2)) P = .ok :=
  ⟨⟨by decide, by decide⟩,
    claim_C1 Digest.leafB Digest.nodeB (mkTree Digest.leafB Digest.nodeB [[1],[2],[3]])
      (mkTree_wf Digest.leafB Digest.nodeB [[1],[2],[3]]) 2 (by decide) (by decide)⟩

/-- Concrete instantiation of C7: replacing the single digest of the proof
from one to two leaves makes verification fail. -/
theorem claim_C7_witness :
    ∃ P, consistency_proof (mkTree Digest.leafB Digest.nodeB [[1],[2]]) 1 = some P ∧
      ∃ h : 0 < P.length,
        Digest.raw [] ≠ P.get ⟨0, h⟩ ∧
        verify_consistency Digest.nodeB
          (treeRootHash Digest.leafB Digest.nodeB
            (mkTree Digest.leafB Digest.nodeB [[1],[2]]).leaves)
          (treeRootHash Digest.leafB Digest.nodeB
            ((mkTree Digest.leafB Digest.nodeB [[1],[2]]).leaves.take 1))
          (P.set 0 (Digest.raw [])) = .err .Failure := by
  have hsp2 : splitPoint 2 = 1 := by
    unfold splitPoint
    rw [show (2:Nat) - 1 = 1 from rfl, Nat.log_one_right]
    decide
  have hp1 : isPow2 1 = true := by
    unfold isPow2
    rw [Nat.log_one_right]
    decide
  have hL : (mkTree Digest.leafB Digest.nodeB [[1],[2]] : CtMerkleTree Digest).leaves =
      [[1],[2]] := rfl
  have hss : stateSibs 0 1 2 = [(1, 2)] :=
    stateSibs_terminal ⟨by decide, by decide⟩ (by rw [show (2:Nat) - 0 = 2 from rfl, hsp2])
  have hP : consistency_proof (mkTree Digest.leafB Digest.nodeB [[1],[2]]) 1 =
      some [hashRange Digest.leafB Digest.nodeB [[1],[2]] 1 2] := by
    rw [consistency_proof_pow2 Digest.leafB Digest.nodeB _ (mkTree_wf _ _ _) 1
      (by decide) (by decide) hp1]
    rw [hL]
    rw [show ([[1],[2]] : List (List Nat)).length = 2 from rfl]
    rw [hss]
    rfl
  have hhr : hashRange Digest.leafB Digest.nodeB [[1],[2]] 1 2 = Digest.leafB [2] := by
    rw [hashRange]
    simp
  have hne : Digest.raw [] ≠ hashRange Digest.leafB Digest.nodeB [[1],[2]] 1 2 := by
    rw [hhr]
    decide
  refine ⟨[hashRange Digest.leafB Digest.nodeB [[1],[2]] 1 2], hP, Nat.one_pos, ?_, ?_⟩
  · exact hne
  · exact claim_C7 (mkTree Digest.leafB Digest.nodeB [[1],[2]]) (mkTree_wf _ _ _) 1
      (by decide) (by decide) [hashRange Digest.leafB Digest.nodeB [[1],[2]] 1 2] hP 0
      (by decide) (Digest.raw []) hne

end CtMerkle

namespace CtMerkle

/-- `verify_consistency` never constructs `MalformedProof`: every branch
ends in `ok`, `Failure` or a panic. -/
lemma verify_no_malformed {D : Type} [DecidableEq D] (nodeH : D → D → D)
    (newR oldR : RootHash D) (proof : List D) :
    verify_consistency nodeH newR oldR proof ≠ .err .MalformedProof := by
  intro h
  simp only [verify_consistency] at h
  repeat' split at h
  all_goals simp at h

/-- C3: corrected.  A proof byte string whose length is not a multiple of
the digest size makes the verification pipeline panic (`from_bytes` panics,
and the chunk decoding inside `verify_consistency` panics), and no code path
ever returns the recoverable error `MalformedProof`. -/
theorem claim_C3 {D : Type} [DecidableEq D] (nodeH : D → D → D) (hs : Nat)
    (dec : List Nat → D) (newR oldR : RootHash D) (bytes : List Nat) :
    verify_consistency_bytes nodeH hs dec newR oldR bytes ≠ .err .MalformedProof ∧
    (bytes.length % hs ≠ 0 →
      from_bytes hs bytes = none ∧
      verify_consistency_bytes nodeH hs dec newR oldR bytes = .panicked) := by
  constructor
  · rw [verify_consistency_bytes]
    by_cases h0 : oldR.num_leaves = 0
    · simp [h0]
    · rw [if_neg h0]
      by_cases h1 : oldR.root_hash = newR.root_hash ∧ bytes = []
      · simp [h1]
      · rw [if_neg h1]
        by_cases h2 : bytes.length % hs ≠ 0
        · simp [h2]
        · rw [if_neg h2]
          exact verify_no_malformed nodeH newR oldR _
  · intro hbad
    refine ⟨by rw [from_bytes, if_neg hbad], ?_⟩
    rw [verify_consistency_bytes]
    by_cases h0 : oldR.num_leaves = 0
    · simp [h0]
    · have hne : bytes ≠ [] := by
        intro he
        rw [he] at hbad
        simp at hbad
      rw [if_neg h0, if_neg (fun hand => hne hand.2), if_pos hbad]

/-- C3: concrete refutation of the claimed behaviour.  A three-byte proof
with digest size two (a one-digest proof with one trailing byte appended)
does not yield `MalformedProof`: `from_bytes` panics on it, and the
byte-level verification panics instead of returning the recoverable
error. -/
theorem claim_C3_counterexample :
    ([0, 0, 7] : List Nat).length % 2 ≠ 0 ∧
    from_bytes 2 [0, 0, 7] = none ∧
    verify_consistency_bytes Digest.nodeB 2 Digest.raw
      (⟨Digest.raw [1], 2⟩ : RootHash Digest) ⟨Digest.raw [2], 1⟩ [0, 0, 7] = .panicked ∧
    (VerifyResult.panicked ≠ .err .MalformedProof) := by
  refine ⟨by decide, by rw [from_bytes]; decide, ?_, by decide⟩
  rw [verify_consistency_bytes]
  decide

/-- Concrete instantiation of the corrected C3 theorem. -/
theorem claim_C3_witness :
    verify_consistency_bytes Digest.nodeB 2 Digest.raw
      (⟨Digest.raw [1], 2⟩ : RootHash Digest) ⟨Digest.raw [2], 1⟩ [9] ≠
        .err .MalformedProof ∧
    (([9] : List Nat).length % 2 ≠ 0 ∧
      from_bytes 2 [9] = none ∧
      verify_consistency_bytes Digest.nodeB 2 Digest.raw
        (⟨Digest.raw [1], 2⟩ : RootHash Digest) ⟨Digest.raw [2], 1⟩ [9] = .panicked) :=
  ⟨(claim_C3 Digest.nodeB 2 Digest.raw ⟨Digest.raw [1], 2⟩ ⟨Digest.raw [2], 1⟩ [9]).1,
    ⟨by decide,
      (claim_C3 Digest.nodeB 2 Digest.raw ⟨Digest.raw [1], 2⟩ ⟨Digest.raw [2], 1⟩ [9]).2
        (by decide)⟩⟩

end CtMerkle
